import Mathlib

/-!
# Marching squares, parallel pipeline (`tema1_par.c`)

A shallow embedding of the worker code `thread_function`, of `update_image` and of the
set-up done by `main`, followed by the properties of the specification that were checked
against it.

Modelling conventions.

* A `ppm_image` is the pair of dimensions `x`, `y` and the pixel buffer `data`, a map from
  buffer index to pixel.  The code indexes the buffer as `x` rows of length `y`
  (`data[i * y + j]`), and so does the embedding.
* All C `int` values that occur are non-negative and far below `2^31` for images of at most
  `2048 x 2048` pixels, so they are natural numbers here; the two `unsigned char`
  temporaries (`curr_color`, `k`) carry an explicit `% 256`.
* `start = thread_id * (double)n / P` and `end = fmin((thread_id + 1) * (double)n / P, n)`
  are converted to `int` by truncation.  The products are exact in double precision and the
  correctly rounded quotient of two integers below `2^53` has the same integer part as the
  exact quotient, so the bounds are the natural-number quotients used below.
* The grid `unsigned char **grid` is a map from `(row, column)` to a byte; its initial
  contents (the state of the freshly allocated rows) is a parameter.
* The loops are lists of iterations (`sample_ops`, `update_image_ops`, `march_cells`) run
  through in program order; a phase of the pipeline is the run of the workers' loops one
  worker after the other, in an arbitrary order given as a list of worker ids.
* `pthread_barrier_wait` is the phase `Phase.barrier` of a worker; `step` lets a worker pass
  it only when every worker of the group has reached it.
* `info->contour_map` is an array of `CONTOUR_CONFIG_COUNT = 16` pointers.  A load
  `info->contour_map[k]` with `k >= 16` is outside the array and undefined: the marching
  step that makes it has no result (`none`), and neither has the run; in particular no image
  is written.
-/

namespace MarchingSquares

/-! ## Constants of the source -/

def CONTOUR_CONFIG_COUNT : Nat := 16
def STEP : Nat := 8
def SIGMA : Nat := 200
def RESCALE_X : Nat := 2048
def RESCALE_Y : Nat := 2048

/-! ## Data model -/

/-- One RGB pixel; every channel is an `unsigned char`. -/
structure ppm_pixel where
  red : Nat
  green : Nat
  blue : Nat
  deriving DecidableEq

/-- The three channels are bytes. -/
def ppm_pixel.wf (px : ppm_pixel) : Prop :=
  px.red < 256 ∧ px.green < 256 ∧ px.blue < 256

instance (px : ppm_pixel) : Decidable px.wf := by
  unfold ppm_pixel.wf; exact inferInstance

/-- An image: `x` rows of `y` pixels as the code indexes them, and the pixel buffer. -/
structure ppm_image where
  x : Nat
  y : Nat
  data : Nat → ppm_pixel

/-- Store into a buffer: the map `m` with the entry at `k` replaced by `v`. -/
def upd {κ β : Type} [DecidableEq κ] (m : κ → β) (k : κ) (v : β) : κ → β :=
  fun k' => if k' = k then v else m k'

/-- A loop whose body may fail: the iterations are run in order on the state, and the loop
stops with `none` at the first iteration that fails. -/
def fold_opt {σ α : Type} (f : σ → α → Option σ) : List α → σ → Option σ
  | [], s => some s
  | a :: l, s =>
    match f s a with
    | none => none
    | some s' => fold_opt f l s'

/-- The grid buffer, read as `grid[i][j] = grid (i, j)`. -/
abbrev Grid := Nat × Nat → Nat

/-! ## Worker ranges (`start`, `end` of `thread_function`) -/

/-- The lower bound `start = thread_id * (double)n / P`, truncated to `int`. -/
def thread_start (thread_id n P : Nat) : Nat :=
  thread_id * n / P

/-- The upper bound `end = fmin((thread_id + 1) * (double)n / P, n)`, truncated to `int`. -/
def thread_end (thread_id n P : Nat) : Nat :=
  min ((thread_id + 1) * n / P) n

/-- The values taken by `i` in `for (int i = start; i < end; i++)`. -/
def thread_rows (thread_id n P : Nat) : List Nat :=
  List.range' (thread_start thread_id n P) (thread_end thread_id n P - thread_start thread_id n P)

/-! ## Step 2 of `thread_function`: sampling the grid -/

/-- The body shared by the three sampling loops: `curr_color = (red + green + blue) / 3`
stored in an `unsigned char`, then `0` if `curr_color > sigma` and `1` otherwise. -/
def classify (sigma : Nat) (curr_pixel : ppm_pixel) : Nat :=
  let curr_color := (curr_pixel.red + curr_pixel.green + curr_pixel.blue) / 3 % 256
  if curr_color > sigma then 0 else 1

/-- One iteration of a sampling loop: the grid cell `grid[row][col]` that is written and the
index of the pixel of `info->image->data` that is read for it. -/
structure sample_op where
  row : Nat
  col : Nat
  pixel_index : Nat
  deriving DecidableEq

/-- The interior loop: `for i in [start, end)`, `for j in [0, q)`, the cell `grid[i][j]` is
computed from `data[i * step_x * image->y + j * step_y]`. -/
def sample_interior_ops (image : ppm_image) (step_x step_y P q p thread_id : Nat) :
    List sample_op :=
  (thread_rows thread_id p P).flatMap fun i =>
    (List.range q).map fun j =>
      { row := i, col := j, pixel_index := i * step_x * image.y + j * step_y }

/-- The second loop: `for i in [start, end)`, the cell `grid[i][q]` is computed from
`data[i * step_x * image->y + image->x - 1]`. -/
def sample_last_column_ops (image : ppm_image) (step_x P q p thread_id : Nat) :
    List sample_op :=
  (thread_rows thread_id p P).map fun i =>
    { row := i, col := q, pixel_index := i * step_x * image.y + image.x - 1 }

/-- The third loop, run by the caller only when `thread_id == P - 1`: `for j in [0, q)`, the
cell `grid[p][j]` is computed from `data[(image->x - 1) * image->y + j * step_y]`. -/
def sample_last_row_ops (image : ppm_image) (step_y q p : Nat) : List sample_op :=
  (List.range q).map fun j =>
    { row := p, col := j, pixel_index := (image.x - 1) * image.y + j * step_y }

/-- All iterations of the sampling step of one worker, in program order.  The test
`thread_id == P - 1` on C integers is `thread_id + 1 = P`. -/
def sample_ops (image : ppm_image) (step_x step_y P q p thread_id : Nat) : List sample_op :=
  sample_interior_ops image step_x step_y P q p thread_id
    ++ sample_last_column_ops image step_x P q p thread_id
    ++ (if thread_id + 1 = P then sample_last_row_ops image step_y q p else [])

/-- The effect of one sampling iteration on the grid. -/
def sample_write (image : ppm_image) (sigma : Nat) (grid : Grid) (op : sample_op) : Grid :=
  upd grid (op.row, op.col) (classify sigma (image.data op.pixel_index))

/-- The sampling step of worker `thread_id`: the grid after its three loops. -/
def sample_thread (image : ppm_image) (step_x step_y sigma P q p thread_id : Nat)
    (grid : Grid) : Grid :=
  (sample_ops image step_x step_y P q p thread_id).foldl (sample_write image sigma) grid

/-- The sampling phase: the workers listed in `order` run their sampling step one after the
other on the shared grid. -/
def sampling_phase (image : ppm_image) (step_x step_y sigma P q p : Nat)
    (order : List Nat) (grid : Grid) : Grid :=
  order.foldl (fun g thread_id => sample_thread image step_x step_y sigma P q p thread_id g) grid

/-! ## `update_image` and step 3 of `thread_function`: marching the squares -/

/-- One iteration of the inner loop of `update_image`: the two indices it computes. -/
structure pixel_copy where
  image_pixel_index : Nat
  contour_pixel_index : Nat
  deriving DecidableEq

/-- The iterations of `update_image(image, contour, x, y)` in program order:
`for i in [0, contour->x)`, `for j in [0, contour->y)`, with
`contour_pixel_index = contour->x * i + j` and
`image_pixel_index = (x + i) * image->y + y + j`. -/
def update_image_ops (image contour : ppm_image) (x y : Nat) : List pixel_copy :=
  (List.range contour.x).flatMap fun i =>
    (List.range contour.y).map fun j =>
      { image_pixel_index := (x + i) * image.y + y + j,
        contour_pixel_index := contour.x * i + j }

/-- The function `update_image`: every iteration copies the three channels of one pixel of
`contour` into `image->data`; the dimensions of `image` are not touched. -/
def update_image (image contour : ppm_image) (x y : Nat) : ppm_image :=
  { image with
    data := (update_image_ops image contour x y).foldl
      (fun data op => upd data op.image_pixel_index (contour.data op.contour_pixel_index))
      image.data }

/-- The configuration of cell `(i, j)`:
`unsigned char k = 8 * grid[i][j] + 4 * grid[i][j + 1] + 2 * grid[i + 1][j + 1]
  + 1 * grid[i + 1][j]`. -/
def cell_config (grid : Grid) (i j : Nat) : Nat :=
  (8 * grid (i, j) + 4 * grid (i, j + 1) + 2 * grid (i + 1, j + 1) + 1 * grid (i + 1, j)) % 256

/-- The cells visited by the marching loops of one worker, in program order:
`for i in [start, end)`, `for j in [0, q)`. -/
def march_cells (P q p thread_id : Nat) : List (Nat × Nat) :=
  (thread_rows thread_id p P).flatMap fun i => (List.range q).map fun j => (i, j)

/-- The load `info->contour_map[k]`.  The map is the array of `CONTOUR_CONFIG_COUNT`
pointers allocated by `init_contour_map`; `contour_map k` stands for its entry `k`, and an
index outside the array has no entry: the load is undefined and the result is `none`. -/
def contour_lookup (contour_map : Nat → ppm_image) (k : Nat) : Option ppm_image :=
  if k < CONTOUR_CONFIG_COUNT then some (contour_map k) else none

/-- The body of the marching loops for the cell `c = (i, j)`:
`update_image(info->image, info->contour_map[k], i * step_x, j * step_y)`; `none` when `k`
is outside the contour map. -/
def march_cell (contour_map : Nat → ppm_image) (grid : Grid) (step_x step_y : Nat)
    (image : ppm_image) (c : Nat × Nat) : Option ppm_image :=
  match contour_lookup contour_map (cell_config grid c.1 c.2) with
  | none => none
  | some contour => some (update_image image contour (c.1 * step_x) (c.2 * step_y))

/-- The marching step of worker `thread_id`.  The loops read the grid and never write it, so
the grid is the one the worker finds when it enters the step.  The step ends with `none` at
the first cell whose configuration is outside the contour map. -/
def march_thread (contour_map : Nat → ppm_image) (grid : Grid)
    (step_x step_y P q p thread_id : Nat) (image : ppm_image) : Option ppm_image :=
  fold_opt (march_cell contour_map grid step_x step_y) (march_cells P q p thread_id) image

/-- The stamping phase on a completed grid: the workers listed in `order` run their marching
step one after the other on the shared image. -/
def stamping_phase (contour_map : Nat → ppm_image) (grid : Grid)
    (step_x step_y P q p : Nat) (order : List Nat) (image : ppm_image) : Option ppm_image :=
  fold_opt (fun im thread_id => march_thread contour_map grid step_x step_y P q p thread_id im)
    order image

/-! ## Step 1 of `thread_function`: rescaling -/

/-- The rescaling loops of one worker: `for i in [start, end)`, `for j in [0, rescaled->y)`
the pixel `rescaled->data[i * rescaled->y + j]` receives the sample computed by
`sample_bicubic(info->image, i / (rescaled->x - 1), j / (rescaled->y - 1), sample)`.  The
helper `sample_bicubic` is not part of this source file and works in floating point; it is
the parameter `sample_bicubic`, applied to the source image and to the loop indices. -/
def rescale_thread (sample_bicubic : ppm_image → Nat → Nat → ppm_pixel)
    (image rescaled_image : ppm_image) (P thread_id : Nat) : ppm_image :=
  { rescaled_image with
    data := ((thread_rows thread_id rescaled_image.x P).flatMap fun i =>
        (List.range rescaled_image.y).map fun j => (i, j)).foldl
      (fun data ij => upd data (ij.1 * rescaled_image.y + ij.2) (sample_bicubic image ij.1 ij.2))
      rescaled_image.data }

/-! ## The shared state, `thread_function` as a sequence of phases, and `main` -/

/-- The object the pointer `info->image` refers to: the image read by `read_ppm`, or the
image allocated by `main` for the rescaled picture. -/
inductive image_ref where
  | original
  | rescaled
  deriving DecidableEq

/-- The memory shared by all workers: the fields of `General_info` together with the two
image objects its pointers refer to.  `rescaled_image` is `none` for the `NULL` pointer. -/
structure general_info where
  rescale : Nat
  P : Nat
  image : image_ref
  original : ppm_image
  rescaled_image : Option ppm_image
  step_x : Nat
  step_y : Nat
  sigma : Nat
  grid : Grid
  contour_map : Nat → ppm_image

/-- The image behind a possibly `NULL` pointer; `main` never lets a worker follow `NULL`. -/
def deref (r : Option ppm_image) : ppm_image :=
  r.getD ⟨0, 0, fun _ => ⟨0, 0, 0⟩⟩

/-- The image `info->image` points to. -/
def general_info.cur_image (info : general_info) : ppm_image :=
  match info.image with
  | .original => info.original
  | .rescaled => deref info.rescaled_image

/-- A store through `info->image`. -/
def general_info.set_cur_image (info : general_info) (im : ppm_image) : general_info :=
  match info.image with
  | .original => { info with original := im }
  | .rescaled => { info with rescaled_image := some im }

/-- The local `p` of `thread_function`. -/
def thread_p (info : general_info) : Nat :=
  if info.rescale = 1 then (deref info.rescaled_image).x / info.step_x
  else info.cur_image.x / info.step_x

/-- The local `q` of `thread_function`. -/
def thread_q (info : general_info) : Nat :=
  if info.rescale = 1 then (deref info.rescaled_image).y / info.step_y
  else info.cur_image.y / info.step_y

/-- The stages of `thread_function` in which a worker touches shared memory or waits:
the rescaling loops, `pthread_barrier_wait`, the assignment `info->image = rescaled_image`,
the three sampling loops, the marching loops. -/
inductive Phase where
  | rescale
  | barrier
  | set_image
  | sample
  | march
  deriving DecidableEq

/-- The control flow of `thread_function`: the block guarded by `if (info->rescale)` ends
with a barrier wait and the pointer assignment; sampling and marching follow one another
directly; the second and last barrier wait comes after the marching loops. -/
def thread_function (info : general_info) : List Phase :=
  (if info.rescale ≠ 0 then [Phase.rescale, Phase.barrier, Phase.set_image] else [])
    ++ [Phase.sample, Phase.march, Phase.barrier]

/-- The effect of one phase of worker `thread_id` on the shared memory.  The locals `p` and
`q` depend only on fields that no worker writes, so they are recomputed here.  The marching
phase has no result (`none`) when it indexes the contour map outside its entries. -/
def exec_phase (sample_bicubic : ppm_image → Nat → Nat → ppm_pixel) (thread_id : Nat)
    (ph : Phase) (info : general_info) : Option general_info :=
  match ph with
  | .rescale =>
    some { info with
      rescaled_image := some (rescale_thread sample_bicubic info.cur_image
        (deref info.rescaled_image) info.P thread_id) }
  | .barrier => some info
  | .set_image => some { info with image := image_ref.rescaled }
  | .sample =>
    some { info with
      grid := sample_thread info.cur_image info.step_x info.step_y info.sigma info.P
        (thread_q info) (thread_p info) thread_id info.grid }
  | .march =>
    match march_thread info.contour_map info.grid info.step_x info.step_y info.P
        (thread_q info) (thread_p info) thread_id info.cur_image with
    | none => none
    | some im => some (info.set_cur_image im)

/-- A moment of the parallel run: the shared memory and, for every worker, the phases it has
still to go through.  A run moves one worker at a time through one whole phase; every run of
this kind is an execution of the threads, namely one in which the phases do not overlap. -/
structure Config where
  info : general_info
  threads : List (List Phase)

/-- Number of barrier waits a worker has still to make. -/
def barriers_left (l : List Phase) : Nat :=
  l.count Phase.barrier

/-- A worker has reached the barrier wait that is the `n`-th from the end of the program: it
is waiting there or has already gone through it. -/
def arrived (n : Nat) (l : List Phase) : Bool :=
  decide (barriers_left l < n) || (decide (barriers_left l = n) && l.head? == some Phase.barrier)

/-- One scheduling step: worker `thread_id` goes through its next phase.  A barrier wait
returns only when all workers of the group have reached it; a worker that is blocked or has
returned cannot be scheduled, and there is no next moment when the phase has no result. -/
def step (sample_bicubic : ppm_image → Nat → Nat → ppm_pixel) (c : Config) (thread_id : Nat) :
    Option Config :=
  match c.threads.get? thread_id with
  | none => none
  | some [] => none
  | some (Phase.barrier :: rest) =>
    if c.threads.all (arrived (barriers_left rest + 1)) then
      some { c with threads := c.threads.set thread_id rest }
    else none
  | some (ph :: rest) =>
    match exec_phase sample_bicubic thread_id ph c.info with
    | none => none
    | some info => some { info := info, threads := c.threads.set thread_id rest }

/-- A run under the schedule `sched`, the list of the workers that move, in order. -/
def run (sample_bicubic : ppm_image → Nat → Nat → ppm_pixel) (sched : List Nat) (c : Config) :
    Option Config :=
  match sched with
  | [] => some c
  | t :: sched =>
    match step sample_bicubic c t with
    | none => none
    | some c' => run sample_bicubic sched c'

/-- All workers have returned, so that `pthread_join` returns for each of them. -/
def Config.finished (c : Config) : Bool :=
  c.threads.all List.isEmpty

/-- The flag `rescale` computed by `main`:
`if (image->x > RESCALE_X || image->y > RESCALE_Y) rescale = 1`. -/
def main_rescale (image : ppm_image) : Nat :=
  if image.x > RESCALE_X ∨ image.y > RESCALE_Y then 1 else 0

/-- The shared memory as `main` sets it up before it starts the workers.  `grid0` and `buf0`
are the contents of the freshly allocated grid rows and rescaled pixel buffer. -/
def main_info (image : ppm_image) (P : Nat) (contour_map : Nat → ppm_image) (grid0 : Grid)
    (buf0 : Nat → ppm_pixel) : general_info :=
  { rescale := main_rescale image
    P := P
    image := image_ref.original
    original := image
    rescaled_image :=
      if main_rescale image = 1 then some ⟨RESCALE_X, RESCALE_Y, buf0⟩ else none
    step_x := STEP
    step_y := STEP
    sigma := SIGMA
    grid := grid0
    contour_map := contour_map }

/-- The value `p` that `main` uses to allocate the grid rows. -/
def main_p (image : ppm_image) : Nat :=
  if main_rescale image = 1 then RESCALE_X / STEP else image.x / STEP

/-- The value `q` that `main` uses to allocate the grid rows. -/
def main_q (image : ppm_image) : Nat :=
  if main_rescale image = 1 then RESCALE_Y / STEP else image.y / STEP

/-- The moment after `main` has created its `P` workers. -/
def main_start (image : ppm_image) (P : Nat) (contour_map : Nat → ppm_image) (grid0 : Grid)
    (buf0 : Nat → ppm_pixel) : Config :=
  { info := main_info image P contour_map grid0 buf0
    threads := List.replicate P (thread_function (main_info image P contour_map grid0 buf0)) }

/-- The image `main` hands to `write_ppm(general_info->image, ...)` after it has joined all
workers, for a run under `sched`; `none` when `sched` is not a complete run: a scheduled
worker is blocked, a worker has not returned, or a marching phase has indexed the contour
map outside its entries, after which nothing is written. -/
def main_output (sample_bicubic : ppm_image → Nat → Nat → ppm_pixel) (image : ppm_image)
    (P : Nat) (contour_map : Nat → ppm_image) (grid0 : Grid) (buf0 : Nat → ppm_pixel)
    (sched : List Nat) : Option ppm_image :=
  match run sample_bicubic sched (main_start image P contour_map grid0 buf0) with
  | none => none
  | some c => if c.finished then some c.info.cur_image else none

/-! ## The mean as the specification words it, and concrete inputs -/

/-- The channel mean of a pixel as the exact rational `(red + green + blue) / 3`, the
reading of "mean" that the specification's sampling property is checked against. -/
def spec_channel_mean (px : ppm_pixel) : ℚ :=
  ((px.red + px.green + px.blue : Nat) : ℚ) / 3

/-- The dimensions of an image as a pair. -/
def ppm_image.dims (im : ppm_image) : Nat × Nat :=
  (im.x, im.y)

/-- A solid black image of `x` rows of `y` pixels. -/
def black_image (x y : Nat) : ppm_image :=
  ⟨x, y, fun _ => ⟨0, 0, 0⟩⟩

/-- An 8 x 8 image all of whose pixels are `(201, 200, 200)`: channel sum 601. -/
def near_threshold_image : ppm_image :=
  ⟨8, 8, fun _ => ⟨201, 200, 200⟩⟩

/-- An image of 8 rows of 16 pixels, white except for the black pixel at buffer index 7. -/
def rows8_cols16_image : ppm_image :=
  ⟨8, 16, fun k => if k = 7 then ⟨0, 0, 0⟩ else ⟨255, 255, 255⟩⟩

/-- A white image with `x = 4096` and `y = 100`. -/
def long_thin_image : ppm_image :=
  ⟨4096, 100, fun _ => ⟨255, 255, 255⟩⟩

/-- Sixteen 8 x 8 stencils; stencil `k` is filled with the colour `(k, k, k)`. -/
def flat_contours : Nat → ppm_image :=
  fun k => ⟨8, 8, fun _ => ⟨k, k, k⟩⟩

/-- A grid buffer filled with the byte `v`. -/
def const_grid (v : Nat) : Grid :=
  fun _ => v

/-- A pixel buffer filled with black. -/
def black_buffer : Nat → ppm_pixel :=
  fun _ => ⟨0, 0, 0⟩

/-- A stand-in for `sample_bicubic` that returns black everywhere. -/
def black_bicubic : ppm_image → Nat → Nat → ppm_pixel :=
  fun _ _ _ => ⟨0, 0, 0⟩

/-- The facts about a moment of a run that hold from the start to the end, for the input
`image` and `P` workers: the flag and the dimensions of the two image objects are those set
up by `main`, and `info->image` is redirected only by a worker in a rescaling run, and is
redirected as soon as any worker is past its assignment. -/
structure run_inv (image : ppm_image) (P : Nat) (c : Config) : Prop where
  rescale_eq : c.info.rescale = main_rescale image
  orig_x : c.info.original.x = image.x
  orig_y : c.info.original.y = image.y
  resc : main_rescale image = 1 →
    ∃ r, c.info.rescaled_image = some r ∧ r.x = RESCALE_X ∧ r.y = RESCALE_Y
  len : c.threads.length = P
  noset : main_rescale image = 0 → ∀ l ∈ c.threads, Phase.set_image ∉ l
  ptr0 : c.info.image = image_ref.original → main_rescale image = 1 →
    ∀ l ∈ c.threads, Phase.set_image ∈ l
  ptr1 : c.info.image = image_ref.rescaled → main_rescale image = 1

/-- Every worker is somewhere in the program `prog`: what it has still to do is an end
piece of `prog`. -/
def suffix_inv (prog : List Phase) (c : Config) : Prop :=
  ∀ l ∈ c.threads, l <:+ prog

/-- The number of phases the workers have still to go through, all workers together. -/
def Config.work (c : Config) : Nat :=
  (c.threads.map List.length).sum

/-- The phases a worker goes through from its sampling loops up to, and without, its
marching loops. -/
def from_sample_to_march (l : List Phase) : List Phase :=
  (l.dropWhile fun ph => ph != Phase.sample).takeWhile fun ph => ph != Phase.march

/-! ## Accesses of the marching step, the allocations of `main`, more concrete inputs -/

/-- The four grid cells read for the configuration of cell `(i, j)`: `grid[i][j]`,
`grid[i][j + 1]`, `grid[i + 1][j + 1]`, `grid[i + 1][j]`. -/
def cell_config_reads (i j : Nat) : List (Nat × Nat) :=
  [(i, j), (i, j + 1), (i + 1, j + 1), (i + 1, j)]

/-- The indices of `info->image->data` that worker `thread_id` stores to in its marching
loops: for every cell it visits, the `image_pixel_index` of every iteration of
`update_image`. -/
def march_writes (contour_map : Nat → ppm_image) (grid : Grid)
    (step_x step_y P q p thread_id : Nat) (image : ppm_image) : List Nat :=
  (march_cells P q p thread_id).flatMap fun c =>
    (update_image_ops image (contour_map (cell_config grid c.1 c.2)) (c.1 * step_x)
      (c.2 * step_y)).map fun op => op.image_pixel_index

/-- The program of a worker when the picture is rescaled. -/
def rescale_prog : List Phase :=
  [Phase.rescale, Phase.barrier, Phase.set_image, Phase.sample, Phase.march, Phase.barrier]

/-- No worker is more than one barrier wait ahead of another, and a worker that another one
is ahead of stands at a barrier wait. -/
def lag_inv (c : Config) : Prop :=
  ∀ l ∈ c.threads, ∀ l' ∈ c.threads, barriers_left l < barriers_left l' →
    barriers_left l' = barriers_left l + 1 ∧ l'.head? = some Phase.barrier

/-- No worker has gone through its marching loops yet. -/
def no_march (c : Config) : Prop :=
  ∀ l ∈ c.threads, Phase.march ∈ l

/-- The image `r` is the rescaled picture of `image`: it has `RESCALE_X` rows of `RESCALE_Y`
pixels and its pixel in row `i`, column `j` is the sample that `sample_bicubic` computes from
`image` for `(i, j)`. -/
def resampled (sample_bicubic : ppm_image → Nat → Nat → ppm_pixel) (image r : ppm_image) :
    Prop :=
  r.x = RESCALE_X ∧ r.y = RESCALE_Y ∧
    ∀ i j, i < RESCALE_X → j < RESCALE_Y → r.data (i * RESCALE_Y + j) = sample_bicubic image i j

/-- The facts about the rescaled image at a moment of a rescaling run: the source image is
as it was read, `info->image` is redirected only after a worker has passed the barrier that
follows the rescaling, and as long as no worker has marched, the rows of every worker that
has done its rescaling loops hold the samples. -/
structure resample_inv (sample_bicubic : ppm_image → Nat → Nat → ppm_pixel)
    (image : ppm_image) (P : Nat) (c : Config) : Prop where
  P_eq : c.info.P = P
  orig : c.info.original = image
  ptr : c.info.image = image_ref.rescaled → ∃ l ∈ c.threads, barriers_left l ≤ 1
  rows : no_march c → ∀ t l, c.threads.get? t = some l → Phase.rescale ∉ l →
    ∀ i j, i ∈ thread_rows t RESCALE_X P → j < RESCALE_Y →
      (deref c.info.rescaled_image).data (i * RESCALE_Y + j) = sample_bicubic image i j

/-- Every byte of the grid buffer is 0 or 1. -/
def grid_bits (c : Config) : Prop :=
  ∀ rc, c.info.grid rc ≤ 1

/-- The step sizes are the ones `main` stores in the shared memory. -/
def steps_inv (c : Config) : Prop :=
  c.info.step_x = STEP ∧ c.info.step_y = STEP

/-- The calls of `malloc` in `main`, in program order: the header of the rescaled image, its
pixel buffer, the barrier object, the array of grid row pointers, grid row `i`, the shared
`General_info`, the argument of worker `i`. -/
inductive alloc_site where
  | rescaled_image
  | rescaled_data
  | barrier
  | grid
  | grid_row (i : Nat)
  | general_info
  | thread_arg (i : Nat)
  deriving DecidableEq

/-- How `main` ends with respect to its allocations: the message on `stderr` followed by
`exit(1)`, taken by the test that follows the allocation at `site`; a store or load through
the `NULL` pointer that the allocation at `site` returned; or `return 0`. -/
inductive main_result where
  | exit_1 (site : alloc_site)
  | null_use (site : alloc_site)
  | return_0
  deriving DecidableEq

/-- The first allocation of `sites` that fails, if any. -/
def first_failed (ok : alloc_site → Bool) (sites : List alloc_site) : Option alloc_site :=
  sites.find? fun s => !ok s

/-- The control flow of `main` as far as its allocations go; `ok site` tells whether the
`malloc` at `site` returns a non-`NULL` pointer.

* Rescaling branch: the header is tested by `if (!rescaled_image)`.  After the pixel buffer
  has been allocated the test is again `if (!rescaled_image)`, which cannot fire, so the run
  goes on whatever `malloc` returned for the buffer.
* The barrier object is tested by `if (!barrier)`.
* `grid` is not tested; the first iteration of the loop that follows stores to `grid[0]`.
  Every row is tested by `if (!grid[i])`, for `i` from 0 to `p`.
* `general_info` and every `arg` are tested.
* The workers, when there is at least one and the picture is rescaled, store to
  `rescaled_image->data`. -/
def main_allocations (image : ppm_image) (P : Nat) (ok : alloc_site → Bool) : main_result :=
  if main_rescale image = 1 ∧ ok alloc_site.rescaled_image = false then
    main_result.exit_1 alloc_site.rescaled_image
  else if ok alloc_site.barrier = false then main_result.exit_1 alloc_site.barrier
  else if ok alloc_site.grid = false then main_result.null_use alloc_site.grid
  else
    match first_failed ok ((List.range (main_p image + 1)).map alloc_site.grid_row) with
    | some s => main_result.exit_1 s
    | none =>
      if ok alloc_site.general_info = false then main_result.exit_1 alloc_site.general_info
      else
        match first_failed ok ((List.range P).map alloc_site.thread_arg) with
        | some s => main_result.exit_1 s
        | none =>
          if main_rescale image = 1 ∧ ok alloc_site.rescaled_data = false ∧ 1 ≤ P then
            main_result.null_use alloc_site.rescaled_data
          else main_result.return_0

/-- The allocator that fails at `site` and nowhere else. -/
def fails_only_at (site : alloc_site) : alloc_site → Bool :=
  fun s => decide (s ≠ site)

/-- The allocations that `main` performs for the input `image` and `P` workers. -/
def main_performs (image : ppm_image) (P : Nat) (site : alloc_site) : Prop :=
  match site with
  | alloc_site.rescaled_image => main_rescale image = 1
  | alloc_site.rescaled_data => main_rescale image = 1
  | alloc_site.barrier => True
  | alloc_site.grid => True
  | alloc_site.grid_row i => i ≤ main_p image
  | alloc_site.general_info => True
  | alloc_site.thread_arg i => i < P

/-- The sum of the three channels of a pixel, as the `int` the sampling loops compute. -/
def ppm_pixel.sum (px : ppm_pixel) : Nat :=
  px.red + px.green + px.blue

/-- A solid white image of `x` rows of `y` pixels. -/
def white_image (x y : Nat) : ppm_image :=
  ⟨x, y, fun _ => ⟨255, 255, 255⟩⟩

/-- The upper bound `ceil(n / P)` of the size of a worker range. -/
def ceil_div (n P : Nat) : Nat :=
  (n + P - 1) / P

/-! ## Generic facts about loops that store into a buffer -/

theorem foldl_flatMap_eq {α β σ : Type} (f : σ → β → σ) (g : α → List β) (l : List α) (s : σ) :
    (l.flatMap g).foldl f s = l.foldl (fun s a => (g a).foldl f s) s := by
  induction l generalizing s with
  | nil => rfl
  | cons a l ih => simp [List.flatMap_cons, List.foldl_append, ih]

/-- A loop of stores leaves alone every entry that none of its iterations targets. -/
theorem foldl_upd_miss {α κ β : Type} [DecidableEq κ] (key : α → κ) (val : α → β)
    (l : List α) (m : κ → β) (k : κ) (h : ∀ a ∈ l, key a ≠ k) :
    (l.foldl (fun m a => upd m (key a) (val a)) m) k = m k := by
  induction l generalizing m with
  | nil => rfl
  | cons a l ih =>
    rw [List.foldl_cons, ih _ (fun b hb => h b (List.mem_cons_of_mem _ hb))]
    have hne : k ≠ key a := fun e => h a (List.mem_cons_self _ _) e.symm
    simp [upd, hne]

/-- When every iteration that targets `k` stores the same value `v`, and some iteration does
target `k`, the entry at `k` is `v` after the loop. -/
theorem foldl_upd_hit {α κ β : Type} [DecidableEq κ] (key : α → κ) (val : α → β)
    (l : List α) (m : κ → β) (k : κ) (v : β) (hex : ∃ a ∈ l, key a = k)
    (hv : ∀ a ∈ l, key a = k → val a = v) :
    (l.foldl (fun m a => upd m (key a) (val a)) m) k = v := by
  induction l generalizing m with
  | nil => obtain ⟨a, ha, _⟩ := hex; cases ha
  | cons a l ih =>
    rw [List.foldl_cons]
    by_cases hl : ∃ b ∈ l, key b = k
    · exact ih _ hl (fun b hb => hv b (List.mem_cons_of_mem _ hb))
    · have hmiss : ∀ b ∈ l, key b ≠ k := fun b hb e => hl ⟨b, hb, e⟩
      rw [foldl_upd_miss key val l _ k hmiss]
      obtain ⟨b, hb, hbk⟩ := hex
      rcases List.mem_cons.mp hb with rfl | hb'
      · simp [upd, ← hbk, hv b (List.mem_cons_self _ _) hbk]
      · exact absurd hbk (hmiss b hb')

/-! ## Facts about the worker ranges -/

theorem mem_thread_rows {thread_id n P i : Nat} :
    i ∈ thread_rows thread_id n P ↔
      thread_start thread_id n P ≤ i ∧ i < thread_end thread_id n P := by
  unfold thread_rows
  rw [List.mem_range'_1]
  omega

theorem thread_end_le (thread_id n P : Nat) : thread_end thread_id n P ≤ n :=
  Nat.min_le_right _ _

/-- Inside the group (`thread_id < P`) the clipping by `fmin` never takes effect. -/
theorem thread_end_eq {thread_id n P : Nat} (h : thread_id < P) :
    thread_end thread_id n P = (thread_id + 1) * n / P := by
  unfold thread_end
  apply Nat.min_eq_left
  have hP : 0 < P := by omega
  rw [Nat.div_le_iff_le_mul_add_pred hP]
  have : (thread_id + 1) * n ≤ P * n := Nat.mul_le_mul_right n (by omega)
  omega

/-- The range of a worker ends no later than the range of any later worker starts. -/
theorem thread_end_le_start {k1 k2 : Nat} (n P : Nat) (h : k1 < k2) :
    thread_end k1 n P ≤ thread_start k2 n P := by
  unfold thread_end thread_start
  exact Nat.le_trans (Nat.min_le_left _ _)
    (Nat.div_le_div_right (Nat.mul_le_mul_right n (by omega)))

/-- Every index below `n` lies in the range of some worker of the group. -/
theorem thread_range_cover {n P i : Nat} (hP : 1 ≤ P) (hi : i < n) :
    ∃ k, k < P ∧ thread_start k n P ≤ i ∧ i < thread_end k n P := by
  have hn : 0 < n := by omega
  have hpos : 1 ≤ (i + 1) * P := Nat.mul_pos (by omega) (by omega)
  have hk1 : ((i + 1) * P - 1) / n * n ≤ (i + 1) * P - 1 := Nat.div_mul_le_self _ _
  have hk2 : (i + 1) * P - 1 < (((i + 1) * P - 1) / n + 1) * n := by
    have := Nat.lt_succ_self (((i + 1) * P - 1) / n)
    exact (Nat.div_lt_iff_lt_mul hn).mp this
  have hiP : (i + 1) * P ≤ n * P := Nat.mul_le_mul_right P (by omega)
  have hkP : ((i + 1) * P - 1) / n < P := by
    rw [Nat.div_lt_iff_lt_mul hn]
    have : n * P = P * n := Nat.mul_comm _ _
    omega
  refine ⟨((i + 1) * P - 1) / n, hkP, ?_, ?_⟩
  · unfold thread_start
    have : ((i + 1) * P - 1) / n * n < (i + 1) * P := by omega
    have h' : ((i + 1) * P - 1) / n * n / P < i + 1 := by
      rw [Nat.div_lt_iff_lt_mul (by omega)]
      exact this
    omega
  · rw [thread_end_eq hkP]
    have : (i + 1) * P ≤ (((i + 1) * P - 1) / n + 1) * n := by omega
    have h' : i + 1 ≤ (((i + 1) * P - 1) / n + 1) * n / P := by
      rw [Nat.le_div_iff_mul_le (by omega)]
      exact this
    omega

/-! ## Facts about the sampling step -/

theorem mem_sample_ops {image : ppm_image} {step_x step_y P q p thread_id : Nat}
    {op : sample_op} :
    op ∈ sample_ops image step_x step_y P q p thread_id ↔
      (∃ i j, i ∈ thread_rows thread_id p P ∧ j < q ∧
          op = ⟨i, j, i * step_x * image.y + j * step_y⟩) ∨
      (∃ i, i ∈ thread_rows thread_id p P ∧
          op = ⟨i, q, i * step_x * image.y + image.x - 1⟩) ∨
      (thread_id + 1 = P ∧ ∃ j, j < q ∧
          op = ⟨p, j, (image.x - 1) * image.y + j * step_y⟩) := by
  unfold sample_ops sample_interior_ops sample_last_column_ops sample_last_row_ops
  simp only [List.mem_append, List.mem_flatMap, List.mem_map, List.mem_range]
  constructor
  · rintro ((⟨i, hi, j, hj, rfl⟩ | ⟨i, hi, rfl⟩) | h)
    · exact Or.inl ⟨i, j, hi, hj, rfl⟩
    · exact Or.inr (Or.inl ⟨i, hi, rfl⟩)
    · by_cases hl : thread_id + 1 = P
      · rw [if_pos hl] at h
        simp only [List.mem_map, List.mem_range] at h
        obtain ⟨j, hj, rfl⟩ := h
        exact Or.inr (Or.inr ⟨hl, j, hj, rfl⟩)
      · rw [if_neg hl] at h
        cases h
  · rintro (⟨i, j, hi, hj, rfl⟩ | ⟨i, hi, rfl⟩ | ⟨hl, j, hj, rfl⟩)
    · exact Or.inl (Or.inl ⟨i, hi, j, hj, rfl⟩)
    · exact Or.inl (Or.inr ⟨i, hi, rfl⟩)
    · right
      rw [if_pos hl]
      simp only [List.mem_map, List.mem_range]
      exact ⟨j, hj, rfl⟩

/-- The sampling phase is one run through the iterations of all its workers. -/
theorem sampling_phase_eq (image : ppm_image) (step_x step_y sigma P q p : Nat)
    (order : List Nat) (grid : Grid) :
    sampling_phase image step_x step_y sigma P q p order grid =
      (order.flatMap fun t => sample_ops image step_x step_y P q p t).foldl
        (fun g op => upd g (op.row, op.col) (classify sigma (image.data op.pixel_index)))
        grid := by
  rw [foldl_flatMap_eq]
  rfl

/-- Every row written by a sampling iteration of the first two loops is below `p`. -/
theorem thread_rows_lt {thread_id p P i : Nat} (h : i ∈ thread_rows thread_id p P) : i < p :=
  Nat.lt_of_lt_of_le (mem_thread_rows.mp h).2 (thread_end_le _ _ _)

/-- An interior cell holds, after the sampling phase, the class of the pixel at
`(i * step_x, j * step_y)`. -/
theorem sampling_phase_interior (image : ppm_image) (step_x step_y sigma P q p : Nat)
    (order : List Nat) (grid : Grid) (hP : 1 ≤ P) (hall : ∀ t, t < P → t ∈ order)
    {i j : Nat} (hi : i < p) (hj : j < q) :
    sampling_phase image step_x step_y sigma P q p order grid (i, j) =
      classify sigma (image.data (i * step_x * image.y + j * step_y)) := by
  rw [sampling_phase_eq]
  apply foldl_upd_hit (fun op : sample_op => (op.row, op.col))
    (fun op : sample_op => classify sigma (image.data op.pixel_index))
  · obtain ⟨k, hk, hs, he⟩ := thread_range_cover hP hi
    refine ⟨⟨i, j, i * step_x * image.y + j * step_y⟩, ?_, rfl⟩
    rw [List.mem_flatMap]
    exact ⟨k, hall k hk, mem_sample_ops.mpr (Or.inl ⟨i, j, mem_thread_rows.mpr ⟨hs, he⟩, hj, rfl⟩)⟩
  · intro op hop hkey
    rw [List.mem_flatMap] at hop
    obtain ⟨t, _, hop⟩ := hop
    rcases mem_sample_ops.mp hop with ⟨i', j', _, _, rfl⟩ | ⟨i', _, rfl⟩ | ⟨_, j', _, rfl⟩
    · simp only [Prod.mk.injEq] at hkey
      obtain ⟨rfl, rfl⟩ := hkey
      rfl
    · simp only [Prod.mk.injEq] at hkey
      omega
    · simp only [Prod.mk.injEq] at hkey
      omega

/-- A cell of the trailing column holds, after the sampling phase, the class of the pixel
at buffer index `i * step_x * y + x - 1`. -/
theorem sampling_phase_last_column (image : ppm_image) (step_x step_y sigma P q p : Nat)
    (order : List Nat) (grid : Grid) (hP : 1 ≤ P) (hall : ∀ t, t < P → t ∈ order)
    {i : Nat} (hi : i < p) :
    sampling_phase image step_x step_y sigma P q p order grid (i, q) =
      classify sigma (image.data (i * step_x * image.y + image.x - 1)) := by
  rw [sampling_phase_eq]
  apply foldl_upd_hit (fun op : sample_op => (op.row, op.col))
    (fun op : sample_op => classify sigma (image.data op.pixel_index))
  · obtain ⟨k, hk, hs, he⟩ := thread_range_cover hP hi
    refine ⟨⟨i, q, i * step_x * image.y + image.x - 1⟩, ?_, rfl⟩
    rw [List.mem_flatMap]
    exact ⟨k, hall k hk, mem_sample_ops.mpr (Or.inr (Or.inl ⟨i, mem_thread_rows.mpr ⟨hs, he⟩, rfl⟩))⟩
  · intro op hop hkey
    rw [List.mem_flatMap] at hop
    obtain ⟨t, _, hop⟩ := hop
    rcases mem_sample_ops.mp hop with ⟨i', j', _, hj', rfl⟩ | ⟨i', _, rfl⟩ | ⟨_, j', _, rfl⟩
    · simp only [Prod.mk.injEq] at hkey
      omega
    · simp only [Prod.mk.injEq] at hkey
      obtain ⟨rfl, _⟩ := hkey
      rfl
    · simp only [Prod.mk.injEq] at hkey
      omega

/-- A cell of the trailing row holds, after the sampling phase, the class of the pixel at
buffer index `(x - 1) * y + j * step_y`. -/
theorem sampling_phase_last_row (image : ppm_image) (step_x step_y sigma P q p : Nat)
    (order : List Nat) (grid : Grid) (hP : 1 ≤ P) (hall : ∀ t, t < P → t ∈ order)
    {j : Nat} (hj : j < q) :
    sampling_phase image step_x step_y sigma P q p order grid (p, j) =
      classify sigma (image.data ((image.x - 1) * image.y + j * step_y)) := by
  rw [sampling_phase_eq]
  apply foldl_upd_hit (fun op : sample_op => (op.row, op.col))
    (fun op : sample_op => classify sigma (image.data op.pixel_index))
  · refine ⟨⟨p, j, (image.x - 1) * image.y + j * step_y⟩, ?_, rfl⟩
    rw [List.mem_flatMap]
    exact ⟨P - 1, hall (P - 1) (by omega),
      mem_sample_ops.mpr (Or.inr (Or.inr ⟨by omega, j, hj, rfl⟩))⟩
  · intro op hop hkey
    rw [List.mem_flatMap] at hop
    obtain ⟨t, _, hop⟩ := hop
    rcases mem_sample_ops.mp hop with ⟨i', j', hi', _, rfl⟩ | ⟨i', hi', rfl⟩ | ⟨_, j', _, rfl⟩
    · simp only [Prod.mk.injEq] at hkey
      have := thread_rows_lt hi'
      omega
    · simp only [Prod.mk.injEq] at hkey
      omega
    · simp only [Prod.mk.injEq] at hkey
      obtain ⟨_, rfl⟩ := hkey
      rfl

/-- No sampling iteration of any worker writes the corner cell `grid[p][q]`. -/
theorem sampling_phase_corner (image : ppm_image) (step_x step_y sigma P q p : Nat)
    (order : List Nat) (grid : Grid) :
    sampling_phase image step_x step_y sigma P q p order grid (p, q) = grid (p, q) := by
  rw [sampling_phase_eq]
  apply foldl_upd_miss (fun op : sample_op => (op.row, op.col))
    (fun op : sample_op => classify sigma (image.data op.pixel_index))
  intro op hop hkey
  rw [List.mem_flatMap] at hop
  obtain ⟨t, _, hop⟩ := hop
  rcases mem_sample_ops.mp hop with ⟨i', j', hi', _, rfl⟩ | ⟨i', hi', rfl⟩ | ⟨_, j', _, rfl⟩
  · simp only [Prod.mk.injEq] at hkey
    omega
  · simp only [Prod.mk.injEq] at hkey
    have := thread_rows_lt hi'
    omega
  · simp only [Prod.mk.injEq] at hkey
    omega

/-! ## Facts about `update_image` and the marching step -/

/-- Two buffer indices of pixels that lie inside a row of length `Y` agree only if the rows
and the columns agree. -/
theorem index_inj {Y r c r' c' : Nat} (hc : c < Y) (hc' : c' < Y)
    (h : r * Y + c = r' * Y + c') : r = r' ∧ c = c' := by
  have hr : r = r' := by
    rcases Nat.lt_trichotomy r r' with hlt | heq | hgt
    · have : (r + 1) * Y ≤ r' * Y := Nat.mul_le_mul_right Y hlt
      rw [Nat.add_mul] at this
      omega
    · exact heq
    · have : (r' + 1) * Y ≤ r * Y := Nat.mul_le_mul_right Y hgt
      rw [Nat.add_mul] at this
      omega
  subst hr
  exact ⟨rfl, by omega⟩

theorem mem_update_image_ops {image contour : ppm_image} {x y : Nat} {op : pixel_copy} :
    op ∈ update_image_ops image contour x y ↔
      ∃ i j, i < contour.x ∧ j < contour.y ∧
        op = ⟨(x + i) * image.y + y + j, contour.x * i + j⟩ := by
  unfold update_image_ops
  simp only [List.mem_flatMap, List.mem_map, List.mem_range]
  constructor
  · rintro ⟨i, hi, j, hj, rfl⟩
    exact ⟨i, j, hi, hj, rfl⟩
  · rintro ⟨i, j, hi, hj, rfl⟩
    exact ⟨i, hi, j, hj, rfl⟩

theorem update_image_x (image contour : ppm_image) (x y : Nat) :
    (update_image image contour x y).x = image.x := rfl

theorem update_image_y (image contour : ppm_image) (x y : Nat) :
    (update_image image contour x y).y = image.y := rfl

/-- A pixel that no iteration of `update_image` targets keeps its value. -/
theorem update_image_miss (image contour : ppm_image) (x y idx : Nat)
    (h : ∀ i j, i < contour.x → j < contour.y → idx ≠ (x + i) * image.y + y + j) :
    (update_image image contour x y).data idx = image.data idx := by
  unfold update_image
  dsimp only
  apply foldl_upd_miss (fun op : pixel_copy => op.image_pixel_index)
    (fun op : pixel_copy => contour.data op.contour_pixel_index)
  intro op hop hkey
  obtain ⟨i, j, hi, hj, rfl⟩ := mem_update_image_ops.mp hop
  exact h i j hi hj hkey.symm

/-- When the stamped block fits inside the rows of the image, the pixel at offset `(a, b)`
of the block receives the pixel of the contour at index `contour.x * a + b`. -/
theorem update_image_hit (image contour : ppm_image) (x y a b : Nat)
    (hy : y + contour.y ≤ image.y) (ha : a < contour.x) (hb : b < contour.y) :
    (update_image image contour x y).data ((x + a) * image.y + y + b) =
      contour.data (contour.x * a + b) := by
  unfold update_image
  dsimp only
  apply foldl_upd_hit (fun op : pixel_copy => op.image_pixel_index)
    (fun op : pixel_copy => contour.data op.contour_pixel_index)
  · exact ⟨⟨(x + a) * image.y + y + b, contour.x * a + b⟩,
      mem_update_image_ops.mpr ⟨a, b, ha, hb, rfl⟩, rfl⟩
  · intro op hop hkey
    obtain ⟨i, j, hi, hj, rfl⟩ := mem_update_image_ops.mp hop
    have hkey' : (x + i) * image.y + (y + j) = (x + a) * image.y + (y + b) := by
      simpa [Nat.add_assoc] using hkey
    obtain ⟨h1, h2⟩ := index_inj (by omega) (by omega) hkey'
    have hia : i = a := by omega
    have hjb : j = b := by omega
    subst hia hjb
    rfl

theorem mem_march_cells {P q p thread_id : Nat} {c : Nat × Nat} :
    c ∈ march_cells P q p thread_id ↔ c.1 ∈ thread_rows thread_id p P ∧ c.2 < q := by
  unfold march_cells
  simp only [List.mem_flatMap, List.mem_map, List.mem_range]
  constructor
  · rintro ⟨i, hi, j, hj, rfl⟩
    exact ⟨hi, hj⟩
  · rintro ⟨hi, hj⟩
    exact ⟨c.1, hi, c.2, hj, rfl⟩

theorem fold_opt_append {σ α : Type} (f : σ → α → Option σ) (l1 l2 : List α) (s : σ) :
    fold_opt f (l1 ++ l2) s =
      match fold_opt f l1 s with
      | none => none
      | some s' => fold_opt f l2 s' := by
  induction l1 generalizing s with
  | nil => rfl
  | cons a l ih =>
    simp only [List.cons_append, fold_opt]
    cases f s a with
    | none => rfl
    | some s' => exact ih s'

theorem fold_opt_flatMap_eq {α β σ : Type} (f : σ → β → Option σ) (g : α → List β)
    (l : List α) (s : σ) :
    fold_opt f (l.flatMap g) s = fold_opt (fun s a => fold_opt f (g a) s) l s := by
  induction l generalizing s with
  | nil => rfl
  | cons a l ih =>
    rw [List.flatMap_cons, fold_opt_append]
    simp only [fold_opt]
    cases fold_opt f (g a) s with
    | none => rfl
    | some s' => exact ih s'

/-- What holds before a loop and is kept by every iteration that succeeds holds after the
loop. -/
theorem fold_opt_inv {σ α : Type} (Inv : σ → Prop) (f : σ → α → Option σ) (l : List α)
    (hstep : ∀ s a s', f s a = some s' → Inv s → Inv s') (s s' : σ) (h0 : Inv s)
    (h : fold_opt f l s = some s') : Inv s' := by
  induction l generalizing s with
  | nil =>
    simp only [fold_opt, Option.some.injEq] at h
    exact h ▸ h0
  | cons a l ih =>
    simp only [fold_opt] at h
    cases hf : f s a with
    | none => rw [hf] at h; cases h
    | some s1 =>
      rw [hf] at h
      exact ih s1 (hstep s a s1 hf h0) h

/-- The marching body succeeds exactly when the configuration of the cell is inside the
contour map, and then it is the call of `update_image` with the stencil of that entry. -/
theorem march_cell_of_lt (contour_map : Nat → ppm_image) (grid : Grid) (step_x step_y : Nat)
    (image : ppm_image) (c : Nat × Nat)
    (h : cell_config grid c.1 c.2 < CONTOUR_CONFIG_COUNT) :
    march_cell contour_map grid step_x step_y image c =
      some (update_image image (contour_map (cell_config grid c.1 c.2)) (c.1 * step_x)
        (c.2 * step_y)) := by
  simp [march_cell, contour_lookup, h]

theorem march_cell_some {contour_map : Nat → ppm_image} {grid : Grid} {step_x step_y : Nat}
    {image out : ppm_image} {c : Nat × Nat}
    (h : march_cell contour_map grid step_x step_y image c = some out) :
    cell_config grid c.1 c.2 < CONTOUR_CONFIG_COUNT ∧
      out = update_image image (contour_map (cell_config grid c.1 c.2)) (c.1 * step_x)
        (c.2 * step_y) := by
  by_cases hk : cell_config grid c.1 c.2 < CONTOUR_CONFIG_COUNT
  · rw [march_cell_of_lt _ _ _ _ _ _ hk] at h
    exact ⟨hk, (Option.some.inj h).symm⟩
  · simp [march_cell, contour_lookup, hk] at h

/-- The stamping phase is one run through the cells of all its workers. -/
theorem stamping_phase_eq (contour_map : Nat → ppm_image) (grid : Grid)
    (step_x step_y P q p : Nat) (order : List Nat) (image : ppm_image) :
    stamping_phase contour_map grid step_x step_y P q p order image =
      fold_opt (march_cell contour_map grid step_x step_y)
        (order.flatMap fun t => march_cells P q p t) image := by
  rw [fold_opt_flatMap_eq]
  rfl

/-- A run of the marching body over cells leaves the dimensions of the image as they are. -/
theorem march_cells_fold_dims (contour_map : Nat → ppm_image) (grid : Grid)
    (step_x step_y : Nat) (cells : List (Nat × Nat)) (image out : ppm_image)
    (h : fold_opt (march_cell contour_map grid step_x step_y) cells image = some out) :
    out.x = image.x ∧ out.y = image.y := by
  apply fold_opt_inv (fun im => im.x = image.x ∧ im.y = image.y)
    (march_cell contour_map grid step_x step_y) cells _ image out ⟨rfl, rfl⟩ h
  intro s c s' hs hinv
  rw [(march_cell_some hs).2]
  exact hinv

/-- A run of the marching body over cells whose configurations are all inside the contour
map succeeds. -/
theorem march_cells_fold_some (contour_map : Nat → ppm_image) (grid : Grid)
    (step_x step_y : Nat) (cells : List (Nat × Nat)) (image : ppm_image)
    (hcfg : ∀ c ∈ cells, cell_config grid c.1 c.2 < CONTOUR_CONFIG_COUNT) :
    ∃ out, fold_opt (march_cell contour_map grid step_x step_y) cells image = some out := by
  induction cells generalizing image with
  | nil => exact ⟨image, rfl⟩
  | cons c cells ih =>
    simp only [fold_opt]
    rw [march_cell_of_lt _ _ _ _ _ _ (hcfg c (List.mem_cons_self _ _))]
    exact ih _ (fun c' hc' => hcfg c' (List.mem_cons_of_mem _ hc'))

/-- With entries in `{0, 1}` the configuration is the plain weighted sum, and it is below 16. -/
theorem cell_config_of_bits (grid : Grid) (i j : Nat) (h00 : grid (i, j) ≤ 1)
    (h01 : grid (i, j + 1) ≤ 1) (h11 : grid (i + 1, j + 1) ≤ 1) (h10 : grid (i + 1, j) ≤ 1) :
    cell_config grid i j =
        8 * grid (i, j) + 4 * grid (i, j + 1) + 2 * grid (i + 1, j + 1) + 1 * grid (i + 1, j) ∧
      cell_config grid i j < 16 := by
  unfold cell_config
  constructor
  · apply Nat.mod_eq_of_lt
    omega
  · omega

/-- The marching body run over a list of cells, with step 8 and 8 x 8 stencils, all
configurations inside the contour map: the run succeeds, and every pixel of a visited cell
ends up with the matching pixel of the stencil of that cell, however often and in whatever
order the cells are visited. -/
theorem march_cells_fold_spec (contour_map : Nat → ppm_image) (grid : Grid) (q : Nat)
    (cells : List (Nat × Nat)) (image : ppm_image) (hq : q * 8 ≤ image.y)
    (hcol : ∀ c ∈ cells, c.2 < q)
    (hcfg : ∀ c ∈ cells, cell_config grid c.1 c.2 < CONTOUR_CONFIG_COUNT)
    (hdim : ∀ c ∈ cells, (contour_map (cell_config grid c.1 c.2)).x = 8 ∧
      (contour_map (cell_config grid c.1 c.2)).y = 8) :
    ∃ out, fold_opt (march_cell contour_map grid 8 8) cells image = some out ∧
      ∀ i j a b, (i, j) ∈ cells → a < 8 → b < 8 →
        out.data ((i * 8 + a) * image.y + (j * 8 + b)) =
          (contour_map (cell_config grid i j)).data (8 * a + b) := by
  induction cells using List.reverseRecOn with
  | nil => exact ⟨image, rfl, fun i j a b hc => by cases hc⟩
  | append_singleton l c ih =>
    obtain ⟨out_l, hl, hspec⟩ := ih (fun c hc => hcol c (List.mem_append_left _ hc))
      (fun c hc => hcfg c (List.mem_append_left _ hc))
      (fun c hc => hdim c (List.mem_append_left _ hc))
    have hy := (march_cells_fold_dims contour_map grid 8 8 l image out_l hl).2
    have hcq : c.2 < q := hcol c (by simp)
    obtain ⟨hdx, hdy⟩ := hdim c (by simp)
    refine ⟨update_image out_l (contour_map (cell_config grid c.1 c.2)) (c.1 * 8) (c.2 * 8),
      ?_, ?_⟩
    · rw [fold_opt_append, hl]
      simp only [fold_opt]
      rw [march_cell_of_lt _ _ _ _ _ _ (hcfg c (by simp))]
    · intro i j a b hc ha hb
      have hjq : j < q := hcol (i, j) hc
      by_cases hcc : c = (i, j)
      · subst hcc
        have := update_image_hit out_l (contour_map (cell_config grid i j)) (i * 8) (j * 8) a b
          (by rw [hdy, hy]; omega) (by rw [hdx]; exact ha) (by rw [hdy]; exact hb)
        rw [hy, hdx, Nat.add_assoc] at this
        exact this
      · have hmem : (i, j) ∈ l := by
          rcases List.mem_append.mp hc with h | h
          · exact h
          · exact absurd (List.mem_singleton.mp h).symm hcc
        rw [update_image_miss]
        · exact hspec i j a b hmem ha hb
        · intro a' b' ha' hb' heq
          rw [hdx] at ha'
          rw [hdy] at hb'
          rw [hy, Nat.add_assoc] at heq
          obtain ⟨h1, h2⟩ := index_inj (by omega) (by omega) heq
          apply hcc
          have e1 : c.1 = i := by omega
          have e2 : c.2 = j := by omega
          exact Prod.ext e1 e2

/-! ## Facts about runs of the workers -/

theorem march_thread_dims {contour_map : Nat → ppm_image} {grid : Grid}
    {step_x step_y P q p thread_id : Nat} {image out : ppm_image}
    (h : march_thread contour_map grid step_x step_y P q p thread_id image = some out) :
    out.x = image.x ∧ out.y = image.y :=
  march_cells_fold_dims contour_map grid step_x step_y _ image out h

theorem main_rescale_cases (image : ppm_image) :
    main_rescale image = 0 ∨ main_rescale image = 1 := by
  unfold main_rescale
  split
  · exact Or.inr rfl
  · exact Or.inl rfl

theorem main_rescale_eq_one (image : ppm_image) :
    main_rescale image = 1 ↔ image.x > RESCALE_X ∨ image.y > RESCALE_Y := by
  unfold main_rescale
  split <;> simp_all

/-- What a successful scheduling step does: the scheduled worker had a next phase, the phase
acts on the shared memory, and only the program of that worker gets shorter. -/
theorem step_some {sample_bicubic : ppm_image → Nat → Nat → ppm_pixel} {c c' : Config}
    {thread_id : Nat} (h : step sample_bicubic c thread_id = some c') :
    ∃ ph rest, c.threads.get? thread_id = some (ph :: rest) ∧
      c'.threads = c.threads.set thread_id rest ∧
      exec_phase sample_bicubic thread_id ph c.info = some c'.info := by
  unfold step at h
  split at h
  · cases h
  · cases h
  · rename_i rest hget
    split at h
    · cases h
      exact ⟨Phase.barrier, rest, hget, rfl, rfl⟩
    · cases h
  · rename_i ph rest _ hget
    split at h
    · cases h
    · rename_i info' hexec
      cases h
      exact ⟨ph, rest, hget, rfl, hexec⟩

/-- What a marching phase that has a result does: the marching step of the worker succeeds
on the image `info->image` points to, and its result is stored there. -/
theorem exec_phase_march {sample_bicubic : ppm_image → Nat → Nat → ppm_pixel} {thread_id : Nat}
    {info info' : general_info}
    (h : exec_phase sample_bicubic thread_id Phase.march info = some info') :
    ∃ im, march_thread info.contour_map info.grid info.step_x info.step_y info.P
        (thread_q info) (thread_p info) thread_id info.cur_image = some im ∧
      info' = info.set_cur_image im := by
  unfold exec_phase at h
  simp only at h
  split at h
  · cases h
  · rename_i im him
    exact ⟨im, him, (Option.some.inj h).symm⟩

theorem main_start_inv (image : ppm_image) (P : Nat) (contour_map : Nat → ppm_image)
    (grid0 : Grid) (buf0 : Nat → ppm_pixel) :
    run_inv image P (main_start image P contour_map grid0 buf0) := by
  refine ⟨rfl, rfl, rfl, ?_, ?_, ?_, ?_, ?_⟩
  · intro h
    refine ⟨⟨RESCALE_X, RESCALE_Y, buf0⟩, ?_, rfl, rfl⟩
    simp [main_start, main_info, h]
  · simp [main_start]
  · intro h l hl
    simp only [main_start, List.mem_replicate] at hl
    rw [hl.2]
    simp [thread_function, main_info, h]
  · intro _ h l hl
    simp only [main_start, List.mem_replicate] at hl
    rw [hl.2]
    simp [thread_function, main_info, h]
  · intro h
    simp [main_start, main_info] at h

theorem step_inv {sample_bicubic : ppm_image → Nat → Nat → ppm_pixel} {image : ppm_image}
    {P : Nat} {c c' : Config} {thread_id : Nat}
    (h : step sample_bicubic c thread_id = some c') (inv : run_inv image P c) :
    run_inv image P c' := by
  obtain ⟨ph, rest, hget, hthreads, hinfo⟩ := step_some h
  have hmem : (ph :: rest) ∈ c.threads := List.get?_mem hget
  have hsub : ∀ l ∈ c'.threads, l ∈ c.threads ∨ l = rest := by
    intro l hl
    rw [hthreads] at hl
    exact List.mem_or_eq_of_mem_set hl
  have hlen : c'.threads.length = P := by rw [hthreads, List.length_set]; exact inv.len
  have hnoset : main_rescale image = 0 → ∀ l ∈ c'.threads, Phase.set_image ∉ l := by
    intro h0 l hl
    rcases hsub l hl with hl | rfl
    · exact inv.noset h0 l hl
    · exact fun hin => inv.noset h0 _ hmem (List.mem_cons_of_mem _ hin)
  have hkeep : ph ≠ Phase.set_image → c'.info.image = c.info.image →
      c'.info.image = image_ref.original → main_rescale image = 1 →
      ∀ l ∈ c'.threads, Phase.set_image ∈ l := by
    intro hph heq ho h1 l hl
    rw [heq] at ho
    rcases hsub l hl with hl | rfl
    · exact inv.ptr0 ho h1 l hl
    · rcases List.mem_cons.mp (inv.ptr0 ho h1 _ hmem) with e | e
      · exact absurd e.symm hph
      · exact e
  cases ph with
  | rescale =>
    have hi : c'.info = { c.info with
        rescaled_image := some (rescale_thread sample_bicubic c.info.cur_image
          (deref c.info.rescaled_image) c.info.P thread_id) } := (Option.some.inj hinfo).symm
    have himg : c'.info.image = c.info.image := by rw [hi]
    refine ⟨by rw [hi]; exact inv.rescale_eq, by rw [hi]; exact inv.orig_x,
      by rw [hi]; exact inv.orig_y, ?_, hlen, hnoset, hkeep (by simp) himg,
      fun h' => inv.ptr1 (himg ▸ h')⟩
    intro h1
    obtain ⟨r, hr, hx, hy⟩ := inv.resc h1
    refine ⟨_, by rw [hi], ?_, ?_⟩
    · show (deref c.info.rescaled_image).x = RESCALE_X
      rw [hr]; exact hx
    · show (deref c.info.rescaled_image).y = RESCALE_Y
      rw [hr]; exact hy
  | barrier =>
    have hi : c'.info = c.info := (Option.some.inj hinfo).symm
    rw [hi] at hkeep
    exact ⟨by rw [hi]; exact inv.rescale_eq, by rw [hi]; exact inv.orig_x,
      by rw [hi]; exact inv.orig_y, by rw [hi]; exact inv.resc, hlen, hnoset,
      by rw [hi]; exact hkeep (by simp) rfl, by rw [hi]; exact inv.ptr1⟩
  | set_image =>
    have hi : c'.info = { c.info with image := image_ref.rescaled } :=
      (Option.some.inj hinfo).symm
    have h1 : main_rescale image = 1 := by
      rcases main_rescale_cases image with h0 | h1
      · exact absurd (List.mem_cons_self _ _) (inv.noset h0 _ hmem)
      · exact h1
    refine ⟨by rw [hi]; exact inv.rescale_eq, by rw [hi]; exact inv.orig_x,
      by rw [hi]; exact inv.orig_y, by rw [hi]; exact inv.resc, hlen, hnoset, ?_, fun _ => h1⟩
    intro ho
    rw [hi] at ho
    cases ho
  | sample =>
    have hi : c'.info = { c.info with
        grid := sample_thread c.info.cur_image c.info.step_x c.info.step_y c.info.sigma
          c.info.P (thread_q c.info) (thread_p c.info) thread_id c.info.grid } :=
      (Option.some.inj hinfo).symm
    have himg : c'.info.image = c.info.image := by rw [hi]
    exact ⟨by rw [hi]; exact inv.rescale_eq, by rw [hi]; exact inv.orig_x,
      by rw [hi]; exact inv.orig_y, by rw [hi]; exact inv.resc, hlen, hnoset,
      hkeep (by simp) himg, fun h' => inv.ptr1 (himg ▸ h')⟩
  | march =>
    obtain ⟨im, him, hi⟩ := exec_phase_march hinfo
    obtain ⟨himx, himy⟩ := march_thread_dims him
    cases hptr : c.info.image with
    | original =>
      have hcur : c.info.cur_image = c.info.original := by
        simp [general_info.cur_image, hptr]
      have hi' : c'.info = { c.info with original := im } := by
        rw [hi]; simp [general_info.set_cur_image, hptr]
      have himg : c'.info.image = c.info.image := by rw [hi']
      refine ⟨by rw [hi']; exact inv.rescale_eq, ?_, ?_, by rw [hi']; exact inv.resc, hlen,
        hnoset, hkeep (by simp) himg, fun h' => inv.ptr1 (himg ▸ h')⟩
      · rw [hi']; show im.x = _
        rw [himx, hcur]; exact inv.orig_x
      · rw [hi']; show im.y = _
        rw [himy, hcur]; exact inv.orig_y
    | rescaled =>
      have hcur : c.info.cur_image = deref c.info.rescaled_image := by
        simp [general_info.cur_image, hptr]
      have hi' : c'.info = { c.info with rescaled_image := some im } := by
        rw [hi]; simp [general_info.set_cur_image, hptr]
      have himg : c'.info.image = c.info.image := by rw [hi']
      refine ⟨by rw [hi']; exact inv.rescale_eq, by rw [hi']; exact inv.orig_x,
        by rw [hi']; exact inv.orig_y, ?_, hlen, hnoset, hkeep (by simp) himg,
        fun h' => inv.ptr1 (himg ▸ h')⟩
      intro h1
      obtain ⟨r, hr, hx, hy⟩ := inv.resc h1
      refine ⟨im, by rw [hi'], ?_, ?_⟩
      · rw [himx, hcur, hr]; exact hx
      · rw [himy, hcur, hr]; exact hy

theorem run_inv_of_run {sample_bicubic : ppm_image → Nat → Nat → ppm_pixel} {image : ppm_image}
    {P : Nat} (sched : List Nat) {c c' : Config}
    (h : run sample_bicubic sched c = some c') (inv : run_inv image P c) :
    run_inv image P c' := by
  induction sched generalizing c with
  | nil =>
    simp only [run, Option.some.injEq] at h
    exact h ▸ inv
  | cons t sched ih =>
    unfold run at h
    split at h
    · cases h
    · rename_i c1 hstep
      exact ih h (step_inv hstep inv)

/-- The dimensions of the image that `main` writes after a complete run. -/
theorem main_output_dims {sample_bicubic : ppm_image → Nat → Nat → ppm_pixel}
    {image : ppm_image} {P : Nat} {contour_map : Nat → ppm_image} {grid0 : Grid}
    {buf0 : Nat → ppm_pixel} {sched : List Nat} {out : ppm_image} (hP : 1 ≤ P)
    (h : main_output sample_bicubic image P contour_map grid0 buf0 sched = some out) :
    (main_rescale image = 0 → out.x = image.x ∧ out.y = image.y) ∧
      (main_rescale image = 1 → out.x = RESCALE_X ∧ out.y = RESCALE_Y) := by
  unfold main_output at h
  split at h
  · cases h
  · rename_i c hrun
    split at h
    · rename_i hfin
      cases h
      have inv := run_inv_of_run sched hrun (main_start_inv image P contour_map grid0 buf0)
      constructor
      · intro h0
        have hptr : c.info.image = image_ref.original := by
          cases hp : c.info.image with
          | original => rfl
          | rescaled => have := inv.ptr1 hp; omega
        simp only [general_info.cur_image, hptr]
        exact ⟨inv.orig_x, inv.orig_y⟩
      · intro h1
        have hptr : c.info.image = image_ref.rescaled := by
          cases hp : c.info.image with
          | rescaled => rfl
          | original =>
            exfalso
            have hne : c.threads ≠ [] := by
              intro he
              have := inv.len
              rw [he] at this
              simp at this
              omega
            obtain ⟨l, hl⟩ := List.exists_mem_of_ne_nil _ hne
            have hin := inv.ptr0 hp h1 l hl
            have hall : c.threads.all List.isEmpty = true := hfin
            rw [List.all_eq_true] at hall
            have hemp := hall l hl
            rw [List.isEmpty_iff] at hemp
            rw [hemp] at hin
            cases hin
        obtain ⟨r, hr, hx, hy⟩ := inv.resc h1
        simp only [general_info.cur_image, hptr, hr, deref, Option.getD_some]
        exact ⟨hx, hy⟩
    · cases h

/-! ## Every run can be completed -/

theorem exists_longest {α : Type} (L : List (List α)) (hne : L ≠ []) :
    ∃ t l, L.get? t = some l ∧ ∀ l' ∈ L, l'.length ≤ l.length := by
  induction L with
  | nil => exact absurd rfl hne
  | cons a L ih =>
    by_cases hL : L = []
    · subst hL
      refine ⟨0, a, rfl, ?_⟩
      intro l' hl'
      rw [List.mem_singleton] at hl'
      rw [hl']
    · obtain ⟨t, l, hget, hmax⟩ := ih hL
      by_cases hal : a.length ≤ l.length
      · refine ⟨t + 1, l, hget, ?_⟩
        intro l' hl'
        rcases List.mem_cons.mp hl' with rfl | h
        · exact hal
        · exact hmax l' h
      · refine ⟨0, a, rfl, ?_⟩
        intro l' hl'
        rcases List.mem_cons.mp hl' with rfl | h
        · exact Nat.le_refl _
        · have := hmax l' h
          omega

theorem sum_length_set {α : Type} (L : List (List α)) (t : Nat) (a : α) (rest : List α)
    (h : L.get? t = some (a :: rest)) :
    ((L.set t rest).map List.length).sum + 1 = (L.map List.length).sum := by
  induction L generalizing t with
  | nil => cases h
  | cons b L ih =>
    cases t with
    | zero =>
      simp only [List.get?_cons_zero, Option.some.injEq] at h
      subst h
      simp only [List.set_cons_zero, List.map_cons, List.sum_cons, List.length_cons]
      omega
    | succ t =>
      simp only [List.get?_cons_succ] at h
      have := ih t h
      simp only [List.set_cons_succ, List.map_cons, List.sum_cons]
      omega

theorem step_suffix_inv {sample_bicubic : ppm_image → Nat → Nat → ppm_pixel}
    {prog : List Phase} {c c' : Config} {thread_id : Nat}
    (h : step sample_bicubic c thread_id = some c') (inv : suffix_inv prog c) :
    suffix_inv prog c' := by
  obtain ⟨ph, rest, hget, hthreads, _⟩ := step_some h
  intro l hl
  rw [hthreads] at hl
  rcases List.mem_or_eq_of_mem_set hl with hl | rfl
  · exact inv l hl
  · exact (List.suffix_cons ph l).trans (inv _ (List.get?_mem hget))

theorem step_work {sample_bicubic : ppm_image → Nat → Nat → ppm_pixel} {c c' : Config}
    {thread_id : Nat} (h : step sample_bicubic c thread_id = some c') :
    c'.work + 1 = c.work := by
  obtain ⟨ph, rest, hget, hthreads, _⟩ := step_some h
  unfold Config.work
  rw [hthreads]
  exact sum_length_set c.threads thread_id ph rest hget

theorem classify_le_one (sigma : Nat) (px : ppm_pixel) : classify sigma px ≤ 1 := by
  unfold classify
  simp only
  split <;> omega

/-- A loop of stores of values below a bound keeps all entries of the buffer below it. -/
theorem foldl_upd_le {α κ : Type} [DecidableEq κ] (key : α → κ) (val : α → Nat) (n : Nat)
    (l : List α) (m : κ → Nat) (hm : ∀ k, m k ≤ n) (hv : ∀ a ∈ l, val a ≤ n) (k : κ) :
    (l.foldl (fun m a => upd m (key a) (val a)) m) k ≤ n := by
  induction l generalizing m with
  | nil => exact hm k
  | cons a l ih =>
    rw [List.foldl_cons]
    apply ih _ _ (fun b hb => hv b (List.mem_cons_of_mem _ hb))
    intro k'
    unfold upd
    split
    · exact hv a (List.mem_cons_self _ _)
    · exact hm k'

/-- The sampling step of a worker writes only the bytes 0 and 1. -/
theorem sample_thread_bits (image : ppm_image) (step_x step_y sigma P q p thread_id : Nat)
    (grid : Grid) (h : ∀ rc, grid rc ≤ 1) (rc : Nat × Nat) :
    sample_thread image step_x step_y sigma P q p thread_id grid rc ≤ 1 :=
  foldl_upd_le (fun op : sample_op => (op.row, op.col))
    (fun op : sample_op => classify sigma (image.data op.pixel_index)) 1 _ grid h
    (fun _ _ => classify_le_one _ _) rc

/-- On a grid of bits the marching step of a worker stays inside the contour map. -/
theorem march_thread_some_of_bits (contour_map : Nat → ppm_image) (grid : Grid)
    (step_x step_y P q p thread_id : Nat) (image : ppm_image) (h : ∀ rc, grid rc ≤ 1) :
    ∃ out, march_thread contour_map grid step_x step_y P q p thread_id image = some out :=
  march_cells_fold_some contour_map grid step_x step_y _ image
    (fun c _ => (cell_config_of_bits grid c.1 c.2 (h _) (h _) (h _) (h _)).2)

theorem set_cur_image_grid (info : general_info) (im : ppm_image) :
    (info.set_cur_image im).grid = info.grid := by
  unfold general_info.set_cur_image
  cases info.image <;> rfl

theorem step_grid_bits {sample_bicubic : ppm_image → Nat → Nat → ppm_pixel} {c c' : Config}
    {thread_id : Nat} (h : step sample_bicubic c thread_id = some c') (inv : grid_bits c) :
    grid_bits c' := by
  obtain ⟨ph, rest, _, _, hinfo⟩ := step_some h
  unfold grid_bits
  cases ph with
  | rescale => rw [← Option.some.inj hinfo]; exact inv
  | barrier => rw [← Option.some.inj hinfo]; exact inv
  | set_image => rw [← Option.some.inj hinfo]; exact inv
  | sample =>
    rw [← Option.some.inj hinfo]
    exact sample_thread_bits _ _ _ _ _ _ _ _ _ inv
  | march =>
    obtain ⟨im, _, hi⟩ := exec_phase_march hinfo
    rw [hi, set_cur_image_grid]
    exact inv

/-- No deadlock: as long as some worker has not returned, some worker can move.  The worker
that is furthest behind is never blocked: if it stands at a barrier wait, every other worker
stands at the same wait or is past it. -/
theorem progress (sample_bicubic : ppm_image → Nat → Nat → ppm_pixel) {prog : List Phase}
    {c : Config} (inv : suffix_inv prog c) (hbits : grid_bits c) (hfin : c.finished = false) :
    ∃ t c', step sample_bicubic c t = some c' := by
  have hex : ∃ l0 ∈ c.threads, l0 ≠ [] := by
    by_contra hno
    have : c.finished = true := by
      unfold Config.finished
      rw [List.all_eq_true]
      intro l hl
      rw [List.isEmpty_iff]
      by_contra hl0
      exact hno ⟨l, hl, hl0⟩
    rw [this] at hfin
    cases hfin
  obtain ⟨l0, hl0, hl0ne⟩ := hex
  have hne : c.threads ≠ [] := List.ne_nil_of_mem hl0
  obtain ⟨t, l, hget, hmax⟩ := exists_longest c.threads hne
  have hlen : 1 ≤ l.length := by
    have h1 := hmax l0 hl0
    have h2 : 1 ≤ l0.length := by
      cases l0 with
      | nil => exact absurd rfl hl0ne
      | cons a l0 => simp
    omega
  cases l with
  | nil => simp at hlen
  | cons ph rest =>
    have hphsuf : (ph :: rest) <:+ prog := inv _ (List.get?_mem hget)
    cases ph with
    | barrier =>
      have hopen : c.threads.all (arrived (barriers_left rest + 1)) = true := by
        rw [List.all_eq_true]
        intro l' hl'
        have hsuf : l' <:+ Phase.barrier :: rest :=
          List.suffix_of_suffix_length_le (inv l' hl') hphsuf (hmax l' hl')
        unfold arrived
        rcases List.suffix_cons_iff.mp hsuf with rfl | hsuf'
        · simp [barriers_left]
        · have := hsuf'.count_le Phase.barrier
          have hlt : barriers_left l' < barriers_left rest + 1 := by
            unfold barriers_left
            omega
          simp [hlt]
      exact ⟨t, { c with threads := c.threads.set t rest }, by simp only [step, hget, hopen, if_true]⟩
    | rescale => exact ⟨t, _, by simp only [step, hget]; rfl⟩
    | set_image => exact ⟨t, _, by simp only [step, hget]; rfl⟩
    | sample => exact ⟨t, _, by simp only [step, hget]; rfl⟩
    | march =>
      obtain ⟨im, him⟩ := march_thread_some_of_bits c.info.contour_map c.info.grid
        c.info.step_x c.info.step_y c.info.P (thread_q c.info) (thread_p c.info) t
        c.info.cur_image hbits
      exact ⟨t, _, by simp only [step, hget, exec_phase, him]; rfl⟩

/-- From any moment in which every worker is somewhere in the common program and the grid
holds only bits, the run can be continued until all workers have returned. -/
theorem exists_complete_run (sample_bicubic : ppm_image → Nat → Nat → ppm_pixel)
    {prog : List Phase} (n : Nat) (c : Config) (hn : c.work ≤ n) (inv : suffix_inv prog c)
    (hbits : grid_bits c) :
    ∃ sched c', run sample_bicubic sched c = some c' ∧ c'.finished = true := by
  induction n generalizing c with
  | zero =>
    cases hfin : c.finished with
    | true => exact ⟨[], c, rfl, hfin⟩
    | false =>
      obtain ⟨t, c', hstep⟩ := progress sample_bicubic inv hbits hfin
      have := step_work hstep
      omega
  | succ n ih =>
    cases hfin : c.finished with
    | true => exact ⟨[], c, rfl, hfin⟩
    | false =>
      obtain ⟨t, c', hstep⟩ := progress sample_bicubic inv hbits hfin
      have hw := step_work hstep
      obtain ⟨sched, c'', hrun, hfin''⟩ := ih c' (by omega) (step_suffix_inv hstep inv)
        (step_grid_bits hstep hbits)
      refine ⟨t :: sched, c'', ?_, hfin''⟩
      simp only [run, hstep]
      exact hrun

/-- The program as started by `main` on grid rows that hold only the bytes 0 and 1 has a
complete run, at the end of which an image is written. -/
theorem main_output_exists (sample_bicubic : ppm_image → Nat → Nat → ppm_pixel)
    (image : ppm_image) (P : Nat) (contour_map : Nat → ppm_image) (grid0 : Grid)
    (buf0 : Nat → ppm_pixel) (hgrid0 : ∀ rc, grid0 rc ≤ 1) :
    ∃ sched,
      (main_output sample_bicubic image P contour_map grid0 buf0 sched).isSome = true := by
  have inv : suffix_inv (thread_function (main_info image P contour_map grid0 buf0))
      (main_start image P contour_map grid0 buf0) := by
    intro l hl
    simp only [main_start, List.mem_replicate] at hl
    exact hl.2 ▸ List.suffix_refl _
  obtain ⟨sched, c', hrun, hfin⟩ := exists_complete_run sample_bicubic _
    (main_start image P contour_map grid0 buf0) (Nat.le_refl _) inv hgrid0
  refine ⟨sched, ?_⟩
  simp only [main_output, hrun, hfin, if_true, Option.isSome_some]

/-! ## The rescaling phase in a run -/

theorem get?_set_other {α : Type} (L : List α) (t t' : Nat) (a : α) (h : t' ≠ t) :
    (L.set t a).get? t' = L.get? t' := by
  induction L generalizing t t' with
  | nil => rfl
  | cons b L ih =>
    cases t with
    | zero =>
      cases t' with
      | zero => exact absurd rfl h
      | succ t' => rfl
    | succ t =>
      cases t' with
      | zero => rfl
      | succ t' =>
        simp only [List.set_cons_succ, List.get?_cons_succ]
        exact ih t t' (fun e => h (by rw [e]))

theorem get?_set_same {α : Type} (L : List α) (t : Nat) (a b : α) (h : L.get? t = some b) :
    (L.set t a).get? t = some a := by
  induction L generalizing t with
  | nil => cases h
  | cons c L ih =>
    cases t with
    | zero => rfl
    | succ t =>
      simp only [List.set_cons_succ, List.get?_cons_succ]
      exact ih t h

theorem suffix_rescale_prog {l : List Phase} (h : l <:+ rescale_prog) :
    l = rescale_prog ∨
      l = [Phase.barrier, Phase.set_image, Phase.sample, Phase.march, Phase.barrier] ∨
      l = [Phase.set_image, Phase.sample, Phase.march, Phase.barrier] ∨
      l = [Phase.sample, Phase.march, Phase.barrier] ∨
      l = [Phase.march, Phase.barrier] ∨ l = [Phase.barrier] ∨ l = [] := by
  unfold rescale_prog at h ⊢
  simp only [List.suffix_cons_iff, List.suffix_nil] at h
  exact h

theorem mem_rescale_cells {t X Y P : Nat} {ij : Nat × Nat} :
    ij ∈ ((thread_rows t X P).flatMap fun i => (List.range Y).map fun j => (i, j)) ↔
      ij.1 ∈ thread_rows t X P ∧ ij.2 < Y := by
  simp only [List.mem_flatMap, List.mem_map, List.mem_range]
  constructor
  · rintro ⟨i, hi, j, hj, rfl⟩
    exact ⟨hi, hj⟩
  · rintro ⟨hi, hj⟩
    exact ⟨ij.1, hi, ij.2, hj, rfl⟩

/-- The rescaling loops of a worker store, for every row `i` of its range and every column
`j`, the sample for `(i, j)` at the pixel of row `i`, column `j`. -/
theorem rescale_thread_hit (sample_bicubic : ppm_image → Nat → Nat → ppm_pixel)
    (image r : ppm_image) (P t i j : Nat) (hi : i ∈ thread_rows t r.x P) (hj : j < r.y) :
    (rescale_thread sample_bicubic image r P t).data (i * r.y + j) = sample_bicubic image i j := by
  unfold rescale_thread
  dsimp only
  apply foldl_upd_hit (fun ij : Nat × Nat => ij.1 * r.y + ij.2)
    (fun ij : Nat × Nat => sample_bicubic image ij.1 ij.2)
  · exact ⟨(i, j), mem_rescale_cells.mpr ⟨hi, hj⟩, rfl⟩
  · intro ij hij hkey
    obtain ⟨_, hj'⟩ := mem_rescale_cells.mp hij
    obtain ⟨e1, e2⟩ := index_inj hj' hj hkey
    rw [e1, e2]

/-- The rescaling loops of a worker leave the pixels of the rows outside its range as they
are. -/
theorem rescale_thread_miss (sample_bicubic : ppm_image → Nat → Nat → ppm_pixel)
    (image r : ppm_image) (P t i j : Nat) (hi : i ∉ thread_rows t r.x P) (hj : j < r.y) :
    (rescale_thread sample_bicubic image r P t).data (i * r.y + j) = r.data (i * r.y + j) := by
  unfold rescale_thread
  dsimp only
  apply foldl_upd_miss (fun ij : Nat × Nat => ij.1 * r.y + ij.2)
    (fun ij : Nat × Nat => sample_bicubic image ij.1 ij.2)
  intro ij hij hkey
  obtain ⟨hi', hj'⟩ := mem_rescale_cells.mp hij
  obtain ⟨e1, _⟩ := index_inj hj' hj hkey
  exact hi (e1 ▸ hi')

/-- The ranges of two different workers have no row in common. -/
theorem thread_rows_disjoint {t t' n P i : Nat} (hne : t ≠ t') (h : i ∈ thread_rows t n P) :
    i ∉ thread_rows t' n P := by
  intro h'
  obtain ⟨hs, he⟩ := mem_thread_rows.mp h
  obtain ⟨hs', he'⟩ := mem_thread_rows.mp h'
  rcases Nat.lt_or_gt_of_ne hne with hlt | hgt
  · have := thread_end_le_start n P hlt
    omega
  · have := thread_end_le_start n P hgt
    omega

/-- A barrier wait returns only when every worker has arrived at it. -/
theorem step_barrier_open {sample_bicubic : ppm_image → Nat → Nat → ppm_pixel} {c c' : Config}
    {t : Nat} {rest : List Phase} (h : step sample_bicubic c t = some c')
    (hget : c.threads.get? t = some (Phase.barrier :: rest)) :
    ∀ l ∈ c.threads, arrived (barriers_left rest + 1) l = true := by
  unfold step at h
  rw [hget] at h
  simp only at h
  split at h
  · rename_i hopen
    exact List.all_eq_true.mp hopen
  · cases h

/-- After a step every worker is where it was or one phase further. -/
theorem step_threads {c c' : Config} {t : Nat} {ph : Phase} {rest : List Phase}
    (hget : c.threads.get? t = some (ph :: rest))
    (hthreads : c'.threads = c.threads.set t rest) :
    (∀ t' l, c'.threads.get? t' = some l →
        (t' = t ∧ l = rest) ∨ (t' ≠ t ∧ c.threads.get? t' = some l)) ∧
      rest ∈ c'.threads ∧
      (∀ l ∈ c'.threads, l ∈ c.threads ∨ l = rest) ∧
      (∀ l ∈ c.threads, l ∈ c'.threads ∨ l = ph :: rest) := by
  have hsame : c'.threads.get? t = some rest := by
    rw [hthreads]
    exact get?_set_same _ _ _ _ hget
  refine ⟨?_, List.get?_mem hsame, ?_, ?_⟩
  · intro t' l hl
    by_cases ht : t' = t
    · subst ht
      rw [hsame] at hl
      exact Or.inl ⟨rfl, (Option.some.inj hl).symm⟩
    · rw [hthreads, get?_set_other _ _ _ _ ht] at hl
      exact Or.inr ⟨ht, hl⟩
  · intro l hl
    rw [hthreads] at hl
    exact List.mem_or_eq_of_mem_set hl
  · intro l hl
    obtain ⟨n, hn⟩ := List.mem_iff_get?.mp hl
    by_cases ht : n = t
    · subst ht
      rw [hget] at hn
      exact Or.inr (Option.some.inj hn).symm
    · left
      apply List.get?_mem (n := n)
      rw [hthreads, get?_set_other _ _ _ _ ht]
      exact hn

theorem barriers_left_cons (ph : Phase) (rest : List Phase) :
    barriers_left (ph :: rest) =
      barriers_left rest + if ph = Phase.barrier then 1 else 0 := by
  unfold barriers_left
  rw [List.count_cons]
  by_cases h : ph = Phase.barrier
  · simp [h]
  · have h' : ¬ (ph == Phase.barrier) = true := by simpa using h
    simp [h, h']

/-- The synchronisation kept by the barrier: `lag_inv` holds at every moment of a run. -/
theorem step_lag_inv {sample_bicubic : ppm_image → Nat → Nat → ppm_pixel} {c c' : Config}
    {t : Nat} (h : step sample_bicubic c t = some c') (inv : lag_inv c) : lag_inv c' := by
  obtain ⟨ph, rest, hget, hthreads, _⟩ := step_some h
  obtain ⟨_, _, hsub, _⟩ := step_threads hget hthreads
  have hmem : (ph :: rest) ∈ c.threads := List.get?_mem hget
  by_cases hph : ph = Phase.barrier
  · subst hph
    have hopen := step_barrier_open h hget
    have hbl : barriers_left (Phase.barrier :: rest) = barriers_left rest + 1 := by
      rw [barriers_left_cons]; simp
    intro l hl l' hl' hlt
    rcases hsub l hl with hl | rfl <;> rcases hsub l' hl' with hl' | rfl
    · exact inv l hl l' hl' hlt
    · have := (inv l hl _ hmem (by omega)).1
      omega
    · have harr := hopen l' hl'
      unfold arrived at harr
      simp only [Bool.or_eq_true, decide_eq_true_eq, Bool.and_eq_true, beq_iff_eq] at harr
      rcases harr with harr | ⟨harr, hhead⟩
      · omega
      · exact ⟨by omega, hhead⟩
    · omega
  · have hbl : barriers_left (ph :: rest) = barriers_left rest := by
      rw [barriers_left_cons]; simp [hph]
    have hhead : (ph :: rest).head? ≠ some Phase.barrier := by
      simp [hph]
    intro l hl l' hl' hlt
    rcases hsub l hl with hl | rfl <;> rcases hsub l' hl' with hl' | rfl
    · exact inv l hl l' hl' hlt
    · exact absurd (inv l hl _ hmem (by omega)).2 hhead
    · have := inv _ hmem l' hl' (by omega)
      exact ⟨by omega, this.2⟩
    · omega

theorem suffix_head_rescale {rest : List Phase}
    (h : (Phase.rescale :: rest) <:+ rescale_prog) :
    rest = [Phase.barrier, Phase.set_image, Phase.sample, Phase.march, Phase.barrier] := by
  rcases suffix_rescale_prog h with h | h | h | h | h | h | h <;>
    simp [rescale_prog] at h
  exact h

theorem suffix_head_set_image {rest : List Phase}
    (h : (Phase.set_image :: rest) <:+ rescale_prog) :
    rest = [Phase.sample, Phase.march, Phase.barrier] := by
  rcases suffix_rescale_prog h with h | h | h | h | h | h | h <;>
    simp [rescale_prog] at h
  exact h

theorem suffix_head_march {rest : List Phase}
    (h : (Phase.march :: rest) <:+ rescale_prog) : rest = [Phase.barrier] := by
  rcases suffix_rescale_prog h with h | h | h | h | h | h | h <;>
    simp [rescale_prog] at h
  exact h

/-- A worker that has its rescaling loops still to do has done nothing yet. -/
theorem suffix_mem_rescale {l : List Phase} (h : l <:+ rescale_prog)
    (hr : Phase.rescale ∈ l) : l = rescale_prog := by
  rcases suffix_rescale_prog h with h | h | h | h | h | h | h
  · exact h
  all_goals (rw [h] at hr; simp at hr)

theorem set_cur_image_rescaled (info : general_info) (im : ppm_image)
    (h : info.image = image_ref.rescaled) :
    info.set_cur_image im = { info with rescaled_image := some im } := by
  unfold general_info.set_cur_image
  rw [h]

theorem cur_image_original (info : general_info) (h : info.image = image_ref.original) :
    info.cur_image = info.original := by
  unfold general_info.cur_image
  rw [h]

/-- The facts of `resample_inv` are kept by every step of a rescaling run. -/
theorem step_resample_inv {sample_bicubic : ppm_image → Nat → Nat → ppm_pixel}
    {image : ppm_image} {P : Nat} {c c' : Config} {t : Nat} (h1 : main_rescale image = 1)
    (h : step sample_bicubic c t = some c') (rinv : run_inv image P c)
    (sinv : suffix_inv rescale_prog c) (linv : lag_inv c)
    (inv : resample_inv sample_bicubic image P c) :
    resample_inv sample_bicubic image P c' := by
  obtain ⟨ph, rest, hget, hthreads, hinfo⟩ := step_some h
  obtain ⟨hget', hrest, hsub, hsup⟩ := step_threads hget hthreads
  have hmem : (ph :: rest) ∈ c.threads := List.get?_mem hget
  have hsuf := sinv _ hmem
  have hnm : no_march c' → no_march c := by
    intro hn l hl
    rcases hsup l hl with hl' | rfl
    · exact hn l hl'
    · exact List.mem_cons_of_mem _ (hn rest hrest)
  have hble : barriers_left rest ≤ barriers_left (ph :: rest) := by
    rw [barriers_left_cons]
    omega
  have hptr_keep : c'.info.image = c.info.image →
      c'.info.image = image_ref.rescaled → ∃ l ∈ c'.threads, barriers_left l ≤ 1 := by
    intro heq hp
    rw [heq] at hp
    obtain ⟨l, hl, hbl⟩ := inv.ptr hp
    rcases hsup l hl with hl' | rfl
    · exact ⟨l, hl', hbl⟩
    · exact ⟨rest, hrest, by omega⟩
  have hrows_keep : ph ≠ Phase.rescale →
      deref c'.info.rescaled_image = deref c.info.rescaled_image →
      no_march c' → ∀ t' l, c'.threads.get? t' = some l → Phase.rescale ∉ l →
        ∀ i j, i ∈ thread_rows t' RESCALE_X P → j < RESCALE_Y →
          (deref c'.info.rescaled_image).data (i * RESCALE_Y + j) =
            sample_bicubic image i j := by
    intro hph heq hn t' l hl hres i j hi hj
    rw [heq]
    rcases hget' t' l hl with ⟨e1, e2⟩ | ⟨_, hl⟩
    · subst e1 e2
      refine inv.rows (hnm hn) t' (ph :: l) hget ?_ i j hi hj
      intro hin
      rcases List.mem_cons.mp hin with e | e
      · exact hph e.symm
      · exact hres e
    · exact inv.rows (hnm hn) t' l hl hres i j hi hj
  cases ph with
  | rescale =>
    have hi : c'.info = { c.info with
        rescaled_image := some (rescale_thread sample_bicubic c.info.cur_image
          (deref c.info.rescaled_image) c.info.P t) } := (Option.some.inj hinfo).symm
    have hrest_eq := suffix_head_rescale hsuf
    have hp0 : c.info.image = image_ref.original := by
      cases hp : c.info.image with
      | original => rfl
      | rescaled =>
        exfalso
        obtain ⟨l, hl, hbl⟩ := inv.ptr hp
        have hb2 : barriers_left (Phase.rescale :: rest) = 2 := by
          rw [hrest_eq]; decide
        have := (linv l hl _ hmem (by omega)).2
        simp at this
    have hcur : c.info.cur_image = image := by
      rw [cur_image_original _ hp0, inv.orig]
    obtain ⟨r, hr, hrx, hry⟩ := rinv.resc h1
    have hd : deref c.info.rescaled_image = r := by
      rw [hr]; rfl
    refine ⟨by rw [hi]; exact inv.P_eq, by rw [hi]; exact inv.orig, ?_, ?_⟩
    · intro hp
      rw [hi] at hp
      rw [hp0] at hp
      cases hp
    · intro hn t' l hl hres i j hi' hj
      rw [hi]
      show (rescale_thread sample_bicubic c.info.cur_image (deref c.info.rescaled_image)
        c.info.P t).data (i * RESCALE_Y + j) = _
      rw [hcur, hd, inv.P_eq, ← hry]
      rcases hget' t' l hl with ⟨e1, _⟩ | ⟨hne, hl⟩
      · subst e1
        exact rescale_thread_hit sample_bicubic image r P t' i j (by rw [hrx]; exact hi')
          (by rw [hry]; exact hj)
      · rw [rescale_thread_miss sample_bicubic image r P t i j
          (by rw [hrx]; exact thread_rows_disjoint hne hi') (by rw [hry]; exact hj)]
        have := inv.rows (hnm hn) t' l hl hres i j hi' hj
        rw [hd, ← hry] at this
        exact this
  | barrier =>
    have hi : c'.info = c.info := (Option.some.inj hinfo).symm
    exact ⟨by rw [hi]; exact inv.P_eq, by rw [hi]; exact inv.orig,
      hptr_keep (by rw [hi]), hrows_keep (by simp) (by rw [hi])⟩
  | set_image =>
    have hi : c'.info = { c.info with image := image_ref.rescaled } :=
      (Option.some.inj hinfo).symm
    have hrest_eq := suffix_head_set_image hsuf
    refine ⟨by rw [hi]; exact inv.P_eq, by rw [hi]; exact inv.orig, ?_,
      hrows_keep (by simp) (by rw [hi])⟩
    intro _
    exact ⟨rest, hrest, by rw [hrest_eq]; decide⟩
  | sample =>
    have hi : c'.info = { c.info with
        grid := sample_thread c.info.cur_image c.info.step_x c.info.step_y c.info.sigma
          c.info.P (thread_q c.info) (thread_p c.info) t c.info.grid } :=
      (Option.some.inj hinfo).symm
    exact ⟨by rw [hi]; exact inv.P_eq, by rw [hi]; exact inv.orig,
      hptr_keep (by rw [hi]), hrows_keep (by simp) (by rw [hi])⟩
  | march =>
    obtain ⟨im, _, hi⟩ := exec_phase_march hinfo
    have hrest_eq := suffix_head_march hsuf
    have hp1 : c.info.image = image_ref.rescaled := by
      cases hp : c.info.image with
      | rescaled => rfl
      | original =>
        exfalso
        have := rinv.ptr0 hp h1 _ hmem
        rw [hrest_eq] at this
        simp at this
    rw [set_cur_image_rescaled _ _ hp1] at hi
    refine ⟨by rw [hi]; exact inv.P_eq, by rw [hi]; exact inv.orig,
      hptr_keep (by rw [hi]), ?_⟩
    intro hn
    exfalso
    have := hn rest hrest
    rw [hrest_eq] at this
    simp at this

theorem exists_get?_of_lt {α : Type} (L : List α) (n : Nat) (h : n < L.length) :
    ∃ a, L.get? n = some a := by
  induction L generalizing n with
  | nil => simp at h
  | cons b L ih =>
    cases n with
    | zero => exact ⟨b, rfl⟩
    | succ n => exact ih n (by simpa using h)

/-- The four families of facts about a rescaling run hold at every moment of it. -/
theorem rescale_run_inv {sample_bicubic : ppm_image → Nat → Nat → ppm_pixel}
    {image : ppm_image} {P : Nat} (h1 : main_rescale image = 1) (sched : List Nat)
    {c c' : Config} (h : run sample_bicubic sched c = some c') (rinv : run_inv image P c)
    (sinv : suffix_inv rescale_prog c) (linv : lag_inv c)
    (inv : resample_inv sample_bicubic image P c) :
    run_inv image P c' ∧ suffix_inv rescale_prog c' ∧ lag_inv c' ∧
      resample_inv sample_bicubic image P c' := by
  induction sched generalizing c with
  | nil =>
    simp only [run, Option.some.injEq] at h
    subst h
    exact ⟨rinv, sinv, linv, inv⟩
  | cons t sched ih =>
    unfold run at h
    split at h
    · cases h
    · rename_i c1 hstep
      exact ih h (step_inv hstep rinv) (step_suffix_inv hstep sinv) (step_lag_inv hstep linv)
        (step_resample_inv h1 hstep rinv sinv linv inv)

/-- A run that starts before any worker has marched and ends after some worker has marched
goes through a last moment before the first marching phase. -/
theorem first_march_split {sample_bicubic : ppm_image → Nat → Nat → ppm_pixel}
    (sched : List Nat) {c c' : Config} (h : run sample_bicubic sched c = some c')
    (hn : no_march c) (hn' : ¬ no_march c') :
    ∃ s1 s2 t cm cn, sched = s1 ++ t :: s2 ∧ run sample_bicubic s1 c = some cm ∧
      no_march cm ∧ step sample_bicubic cm t = some cn ∧ ¬ no_march cn := by
  induction sched generalizing c with
  | nil =>
    simp only [run, Option.some.injEq] at h
    subst h
    exact absurd hn hn'
  | cons t sched ih =>
    unfold run at h
    split at h
    · cases h
    · rename_i c1 hstep
      by_cases hn1 : no_march c1
      · obtain ⟨s1, s2, t', cm, cn, hs, hr, hm, hst, hcn⟩ := ih h hn1
        refine ⟨t :: s1, s2, t', cm, cn, by rw [hs]; rfl, ?_, hm, hst, hcn⟩
        simp only [run, hstep]
        exact hr
      · exact ⟨[], sched, t, c, c1, rfl, rfl, hn, hstep, hn1⟩

/-- At the last moment before the first marching phase of a rescaling run the rescaled image
holds the sample of every pixel. -/
theorem resampled_before_first_march {sample_bicubic : ppm_image → Nat → Nat → ppm_pixel}
    {image : ppm_image} {P : Nat} {cm cn : Config} {t : Nat} (hP : 1 ≤ P)
    (h1 : main_rescale image = 1) (hstep : step sample_bicubic cm t = some cn)
    (hn : no_march cm) (hn' : ¬ no_march cn) (rinv : run_inv image P cm)
    (sinv : suffix_inv rescale_prog cm) (linv : lag_inv cm)
    (inv : resample_inv sample_bicubic image P cm) :
    resampled sample_bicubic image (deref cm.info.rescaled_image) := by
  obtain ⟨ph, rest, hget, hthreads, _⟩ := step_some hstep
  obtain ⟨_, _, hsub, _⟩ := step_threads hget hthreads
  have hmem : (ph :: rest) ∈ cm.threads := List.get?_mem hget
  have hph : ph = Phase.march ∧ Phase.march ∉ rest := by
    by_contra hcon
    apply hn'
    intro l hl
    rcases hsub l hl with hl | rfl
    · exact hn l hl
    · rcases List.mem_cons.mp (hn _ hmem) with e | e
      · by_contra hl'
        exact hcon ⟨e.symm, hl'⟩
      · exact e
  obtain ⟨rfl, _⟩ := hph
  have hrest_eq := suffix_head_march (sinv _ hmem)
  have hb1 : barriers_left (Phase.march :: rest) = 1 := by
    rw [hrest_eq]; decide
  obtain ⟨r, hr, hrx, hry⟩ := rinv.resc h1
  have hd : deref cm.info.rescaled_image = r := by
    rw [hr]; rfl
  refine ⟨by rw [hd]; exact hrx, by rw [hd]; exact hry, ?_⟩
  intro i j hi hj
  obtain ⟨t', ht', hs, he⟩ := thread_range_cover hP hi
  obtain ⟨l, hl⟩ := exists_get?_of_lt cm.threads t' (by rw [rinv.len]; exact ht')
  have hlm : l ∈ cm.threads := List.get?_mem hl
  have hres : Phase.rescale ∉ l := by
    intro hin
    have hl_eq := suffix_mem_rescale (sinv l hlm) hin
    have hb2 : barriers_left l = 2 := by rw [hl_eq]; decide
    have := (linv _ hmem l hlm (by omega)).2
    rw [hl_eq] at this
    simp [rescale_prog] at this
  exact inv.rows hn t' l hl hres i j (mem_thread_rows.mpr ⟨hs, he⟩) hj

theorem thread_function_rescale_prog (image : ppm_image) (P : Nat)
    (contour_map : Nat → ppm_image) (grid0 : Grid) (buf0 : Nat → ppm_pixel)
    (h1 : main_rescale image = 1) :
    thread_function (main_info image P contour_map grid0 buf0) = rescale_prog := by
  simp [thread_function, main_info, h1, rescale_prog]

/-- Every complete run on a picture that needs rescaling goes through a moment at which the
rescaled image holds, at every pixel, the sample computed from the picture that was read. -/
theorem rescaled_in_every_run (sample_bicubic : ppm_image → Nat → Nat → ppm_pixel)
    (image : ppm_image) (P : Nat) (contour_map : Nat → ppm_image) (grid0 : Grid)
    (buf0 : Nat → ppm_pixel) (sched : List Nat) (hP : 1 ≤ P) (h1 : main_rescale image = 1)
    (hrun : (main_output sample_bicubic image P contour_map grid0 buf0 sched).isSome = true) :
    ∃ s1 s2 cm, sched = s1 ++ s2 ∧
      run sample_bicubic s1 (main_start image P contour_map grid0 buf0) = some cm ∧
      resampled sample_bicubic image (deref cm.info.rescaled_image) := by
  have hprog := thread_function_rescale_prog image P contour_map grid0 buf0 h1
  have hthreads : (main_start image P contour_map grid0 buf0).threads =
      List.replicate P rescale_prog := by
    simp only [main_start, hprog]
  have rinv0 := main_start_inv image P contour_map grid0 buf0
  have sinv0 : suffix_inv rescale_prog (main_start image P contour_map grid0 buf0) := by
    intro l hl
    rw [hthreads] at hl
    exact (List.mem_replicate.mp hl).2 ▸ List.suffix_refl _
  have linv0 : lag_inv (main_start image P contour_map grid0 buf0) := by
    intro l hl l' hl' hlt
    rw [hthreads] at hl hl'
    rw [(List.mem_replicate.mp hl).2, (List.mem_replicate.mp hl').2] at hlt
    omega
  have hn0 : no_march (main_start image P contour_map grid0 buf0) := by
    intro l hl
    rw [hthreads] at hl
    rw [(List.mem_replicate.mp hl).2]
    decide
  have inv0 : resample_inv sample_bicubic image P
      (main_start image P contour_map grid0 buf0) := by
    refine ⟨rfl, rfl, ?_, ?_⟩
    · intro hp
      cases hp
    · intro _ t l hl hres
      exfalso
      have hlm := List.get?_mem hl
      rw [hthreads] at hlm
      rw [(List.mem_replicate.mp hlm).2] at hres
      exact hres (by decide)
  unfold main_output at hrun
  split at hrun
  · cases hrun
  · rename_i c hc
    split at hrun
    · rename_i hfin
      have hinv := rescale_run_inv h1 sched hc rinv0 sinv0 linv0 inv0
      have hn' : ¬ no_march c := by
        intro hn
        have hne : c.threads ≠ [] := by
          intro he
          have := hinv.1.len
          rw [he] at this
          simp at this
          omega
        obtain ⟨l, hl⟩ := List.exists_mem_of_ne_nil _ hne
        have hall : c.threads.all List.isEmpty = true := hfin
        rw [List.all_eq_true] at hall
        have hemp := hall l hl
        rw [List.isEmpty_iff] at hemp
        have := hn l hl
        rw [hemp] at this
        cases this
      obtain ⟨s1, s2, t, cm, cn, hs, hr, hm, hst, hcn⟩ := first_march_split sched hc hn0 hn'
      obtain ⟨rinv, sinv, linv, inv⟩ := rescale_run_inv h1 s1 hr rinv0 sinv0 linv0 inv0
      exact ⟨s1, t :: s2, cm, hs, hr,
        resampled_before_first_march hP h1 hst hm hcn rinv sinv linv inv⟩
    · cases hrun

/-- With the byte 7 left in the corner cell of the grid, the single cell of the black 8 x 8
image has the configuration 27, outside the sixteen entries of the contour map: the
marching phase has no result and no image is written. -/
theorem main_output_corner_fault :
    cell_config (sampling_phase (black_image 8 8) STEP STEP SIGMA 1 (8 / STEP) (8 / STEP) [0]
        (const_grid 7)) 0 0 = 27 ∧
      main_output black_bicubic (black_image 8 8) 1 flat_contours (const_grid 7) black_buffer
        [0, 0, 0] = none := by
  constructor
  · decide
  · have h : (main_output black_bicubic (black_image 8 8) 1 flat_contours (const_grid 7)
        black_buffer [0, 0, 0]).isNone = true := by decide
    exact Option.isNone_iff_eq_none.mp h

/-! ## The properties of the specification -/

/-- C1: with a grid whose entries are 0 or 1 and sixteen stencils of 8 x 8 pixels, the
stamping phase uses for every cell `(i, j)`, `i < p`, `j < q`, the configuration
`k = 8 * grid[i][j] + 4 * grid[i][j+1] + 2 * grid[i+1][j+1] + 1 * grid[i+1][j]`, the phase
runs to its end inside the contour map, and after it the output pixel at row `i * 8 + a`,
column `j * 8 + b` is pixel `(a, b)` of stencil `k`, for all `a, b < 8`. -/
theorem C1_stamping_copies_stencil (image : ppm_image) (contour_map : Nat → ppm_image)
    (grid : Grid) (P : Nat) (order : List Nat) (hP : 1 ≤ P) (hall : ∀ t, t < P → t ∈ order)
    (hgrid : ∀ r c, r ≤ image.x / STEP → c ≤ image.y / STEP → grid (r, c) ≤ 1)
    (hst : ∀ k, k < CONTOUR_CONFIG_COUNT → (contour_map k).x = STEP ∧ (contour_map k).y = STEP)
    (i j a b : Nat) (hi : i < image.x / STEP) (hj : j < image.y / STEP)
    (ha : a < STEP) (hb : b < STEP) :
    cell_config grid i j =
        8 * grid (i, j) + 4 * grid (i, j + 1) + 2 * grid (i + 1, j + 1) + 1 * grid (i + 1, j) ∧
      (stamping_phase contour_map grid STEP STEP P (image.y / STEP) (image.x / STEP) order
          image).map (fun out => out.data ((i * STEP + a) * image.y + (j * STEP + b))) =
        some ((contour_map (cell_config grid i j)).data (a * STEP + b)) := by
  simp only [STEP, CONTOUR_CONFIG_COUNT] at *
  have hbits : ∀ i' j', i' < image.x / 8 → j' < image.y / 8 →
      cell_config grid i' j' =
          8 * grid (i', j') + 4 * grid (i', j' + 1) + 2 * grid (i' + 1, j' + 1)
            + 1 * grid (i' + 1, j') ∧ cell_config grid i' j' < 16 := by
    intro i' j' hi' hj'
    exact cell_config_of_bits grid i' j' (hgrid _ _ (by omega) (by omega))
      (hgrid _ _ (by omega) (by omega)) (hgrid _ _ (by omega) (by omega))
      (hgrid _ _ (by omega) (by omega))
  refine ⟨(hbits i j hi hj).1, ?_⟩
  rw [stamping_phase_eq, Nat.mul_comm a 8]
  have hcells : ∀ c ∈ (order.flatMap fun t => march_cells P (image.y / 8) (image.x / 8) t),
      c.1 < image.x / 8 ∧ c.2 < image.y / 8 := by
    intro c hc
    obtain ⟨t, _, hc⟩ := List.mem_flatMap.mp hc
    obtain ⟨h1, h2⟩ := mem_march_cells.mp hc
    exact ⟨thread_rows_lt h1, h2⟩
  obtain ⟨out, hout, hspec⟩ := march_cells_fold_spec contour_map grid (image.y / 8)
    (order.flatMap fun t => march_cells P (image.y / 8) (image.x / 8) t) image
    (Nat.div_mul_le_self _ _) (fun c hc => (hcells c hc).2)
    (fun c hc => (hbits c.1 c.2 (hcells c hc).1 (hcells c hc).2).2)
    (fun c hc => hst _ (hbits c.1 c.2 (hcells c hc).1 (hcells c hc).2).2)
  have hmem : (i, j) ∈ (order.flatMap fun t => march_cells P (image.y / 8) (image.x / 8) t) := by
    obtain ⟨k, hk, hs, he⟩ := thread_range_cover hP hi
    exact List.mem_flatMap.mpr ⟨k, hall k hk,
      mem_march_cells.mpr ⟨mem_thread_rows.mpr ⟨hs, he⟩, hj⟩⟩
  rw [hout, Option.map_some', hspec i j a b hmem ha hb]

/-- C1 at a concrete input: an 8 x 8 image, an all-ones grid, one worker, pixel `(3, 5)` of
the single cell. -/
theorem C1_stamping_copies_stencil_witness :
    cell_config (const_grid 1) 0 0 = 15 ∧
      (stamping_phase flat_contours (const_grid 1) STEP STEP 1 ((black_image 8 8).y / STEP)
          ((black_image 8 8).x / STEP) [0] (black_image 8 8)).map
          (fun out => out.data ((0 * STEP + 3) * (black_image 8 8).y + (0 * STEP + 5))) =
        some ((flat_contours (cell_config (const_grid 1) 0 0)).data (3 * STEP + 5)) :=
  C1_stamping_copies_stencil (black_image 8 8) flat_contours (const_grid 1) 1 [0]
    (by decide) (fun t ht => by simp; omega) (fun _ _ _ _ => Nat.le_refl 1)
    (fun _ _ => ⟨rfl, rfl⟩) 0 0 3 5 (by decide) (by decide) (by decide) (by decide)

/-- The class of a pixel with byte channels: 0 or 1, and 1 exactly when the truncated mean
is at most `sigma`. -/
theorem classify_spec (sigma : Nat) (px : ppm_pixel) (hpx : px.wf) :
    (classify sigma px = 0 ∨ classify sigma px = 1) ∧
      (classify sigma px = 1 ↔ (px.red + px.green + px.blue) / 3 ≤ sigma) := by
  obtain ⟨hr, hg, hb⟩ := hpx
  have hm : (px.red + px.green + px.blue) / 3 % 256 = (px.red + px.green + px.blue) / 3 := by
    apply Nat.mod_eq_of_lt
    omega
  unfold classify
  simp only [hm]
  split
  · exact ⟨Or.inl rfl, by constructor <;> intro h <;> omega⟩
  · exact ⟨Or.inr rfl, by constructor <;> intro h <;> omega⟩

/-- C2, as amended: after the sampling phase of `P >= 1` workers every interior cell
`(i, j)`, `i < p`, `j < q`, holds 0 or 1, and it holds 1 exactly when the truncated integer
mean `(red + green + blue) / 3` of the pixel sampled at `(i * 8, j * 8)` is at most 200. -/
theorem C2_interior_cell_truncated_mean (image : ppm_image) (P : Nat) (order : List Nat)
    (grid : Grid) (hP : 1 ≤ P) (hall : ∀ t, t < P → t ∈ order) (i j : Nat)
    (hi : i < image.x / STEP) (hj : j < image.y / STEP)
    (hpx : (image.data (i * STEP * image.y + j * STEP)).wf) :
    (sampling_phase image STEP STEP SIGMA P (image.y / STEP) (image.x / STEP) order grid
          (i, j) = 0 ∨
        sampling_phase image STEP STEP SIGMA P (image.y / STEP) (image.x / STEP) order grid
          (i, j) = 1) ∧
      (sampling_phase image STEP STEP SIGMA P (image.y / STEP) (image.x / STEP) order grid
          (i, j) = 1 ↔
        ((image.data (i * STEP * image.y + j * STEP)).red
            + (image.data (i * STEP * image.y + j * STEP)).green
            + (image.data (i * STEP * image.y + j * STEP)).blue) / 3 ≤ 200) := by
  rw [sampling_phase_interior image STEP STEP SIGMA P _ _ order grid hP hall hi hj]
  exact classify_spec SIGMA _ hpx

/-- C2 as amended, at a concrete input: the pixel `(201, 200, 200)` has truncated mean 200
and its cell is 1. -/
theorem C2_interior_cell_truncated_mean_witness :
    sampling_phase near_threshold_image STEP STEP SIGMA 1 (near_threshold_image.y / STEP)
        (near_threshold_image.x / STEP) [0] (const_grid 0) (0, 0) = 1 ↔
      ((near_threshold_image.data (0 * STEP * near_threshold_image.y + 0 * STEP)).red
          + (near_threshold_image.data (0 * STEP * near_threshold_image.y + 0 * STEP)).green
          + (near_threshold_image.data (0 * STEP * near_threshold_image.y + 0 * STEP)).blue)
        / 3 ≤ 200 :=
  (C2_interior_cell_truncated_mean near_threshold_image 1 [0] (const_grid 0) (by decide)
    (fun t ht => by simp; omega) 0 0 (by decide) (by decide) (by decide)).2

/-- C2 as stated fails: for the 8 x 8 image of pixels `(201, 200, 200)` the cell `(0, 0)` is
1 after sampling, while the exact rational mean `601 / 3` of the sampled pixel exceeds 200. -/
theorem C2_exact_mean_counterexample :
    ¬ (sampling_phase near_threshold_image STEP STEP SIGMA 1 (near_threshold_image.y / STEP)
          (near_threshold_image.x / STEP) [0] (const_grid 0) (0, 0) = 1 ↔
        spec_channel_mean
          (near_threshold_image.data (0 * STEP * near_threshold_image.y + 0 * STEP)) ≤ 200) := by
  have h1 : sampling_phase near_threshold_image STEP STEP SIGMA 1
      (near_threshold_image.y / STEP) (near_threshold_image.x / STEP) [0] (const_grid 0)
      (0, 0) = 1 := by decide
  have h2 : ¬ spec_channel_mean
      (near_threshold_image.data (0 * STEP * near_threshold_image.y + 0 * STEP)) ≤ 200 := by
    simp only [spec_channel_mean, near_threshold_image]
    norm_num
  exact fun h => h2 (h.mp h1)

/-- C3: the sampling phase assigns no value to the corner cell `grid[p][q]`: whatever the
image, the step, the number of workers and their order, the cell holds after the phase what
the buffer held before it.  For the 8 x 8 black image and one worker, two initial buffers
give two different grids at `(1, 1)`. -/
theorem C3_corner_cell_never_sampled :
    (∀ (image : ppm_image) (step_x step_y sigma P q p : Nat) (order : List Nat) (grid : Grid),
        sampling_phase image step_x step_y sigma P q p order grid (p, q) = grid (p, q)) ∧
      sampling_phase (black_image 8 8) STEP STEP SIGMA 1 ((black_image 8 8).y / STEP)
          ((black_image 8 8).x / STEP) [0] (const_grid 0) (1, 1) ≠
        sampling_phase (black_image 8 8) STEP STEP SIGMA 1 ((black_image 8 8).y / STEP)
          ((black_image 8 8).x / STEP) [0] (const_grid 7) (1, 1) :=
  ⟨sampling_phase_corner, by decide⟩

/-- C4: the output depends on the number of workers.  For the black image of 16 rows of 8
pixels, stencils of colour `(k, k, k)` and a zeroed grid buffer, the run with one worker
writes colour 15 at pixel 0; the run with two workers in which worker 0 samples and marches
before worker 1 samples, which the missing barrier allows, writes colour 12 there; another
run with two workers writes colour 15. -/
theorem C4_output_depends_on_worker_count :
    (main_output black_bicubic (black_image 16 8) 1 flat_contours (const_grid 0) black_buffer
        [0, 0, 0]).map (fun im => im.data 0) = some ⟨15, 15, 15⟩ ∧
      (main_output black_bicubic (black_image 16 8) 2 flat_contours (const_grid 0) black_buffer
        [0, 0, 1, 1, 0, 1]).map (fun im => im.data 0) = some ⟨12, 12, 12⟩ ∧
      (main_output black_bicubic (black_image 16 8) 2 flat_contours (const_grid 0) black_buffer
        [0, 1, 1, 0, 0, 1]).map (fun im => im.data 0) = some ⟨15, 15, 15⟩ := by
  refine ⟨by decide, by decide, by decide⟩

/-- C5: for `P >= 1` workers and a range length `n`, the half-open ranges
`[start_k, end_k)`, `k < P`, cover exactly `[0, n)` and are pairwise disjoint. -/
theorem C5_worker_ranges_partition (P n : Nat) (hP : 1 ≤ P) :
    (∀ i, i < n ↔ ∃ k, k < P ∧ thread_start k n P ≤ i ∧ i < thread_end k n P) ∧
      (∀ k1 k2 i, k1 < P → k2 < P →
        thread_start k1 n P ≤ i → i < thread_end k1 n P →
        thread_start k2 n P ≤ i → i < thread_end k2 n P → k1 = k2) := by
  constructor
  · intro i
    constructor
    · exact fun hi => thread_range_cover hP hi
    · rintro ⟨k, _, _, he⟩
      exact Nat.lt_of_lt_of_le he (thread_end_le k n P)
  · intro k1 k2 i _ _ hs1 he1 hs2 he2
    rcases Nat.lt_trichotomy k1 k2 with h | h | h
    · have := thread_end_le_start n P h
      omega
    · exact h
    · have := thread_end_le_start n P h
      omega

/-- C5 at a concrete input: three workers on a range of length 10. -/
theorem C5_worker_ranges_partition_witness :
    (∀ i, i < 10 ↔ ∃ k, k < 3 ∧ thread_start k 10 3 ≤ i ∧ i < thread_end k 10 3) ∧
      (∀ k1 k2 i, k1 < 3 → k2 < 3 →
        thread_start k1 10 3 ≤ i → i < thread_end k1 10 3 →
        thread_start k2 10 3 ≤ i → i < thread_end k2 10 3 → k1 = k2) :=
  C5_worker_ranges_partition 3 10 (by decide)

/-- C6: in the program of every worker, with or without rescaling, the marching loops follow
the sampling loops with no barrier wait in between: the only phase from the start of
sampling up to the start of marching is the sampling itself, and the phase sequence is
RESCALE, barrier, (pointer assignment,) SAMPLE, STAMP, barrier.  In the run of two workers
on the black image of 16 rows of 8 pixels, worker 0 completes its marching before worker 1
starts to sample, and the run is a complete one. -/
theorem C6_no_barrier_between_sample_and_march :
    (∀ info : general_info, from_sample_to_march (thread_function info) = [Phase.sample]) ∧
      (∀ info : general_info, info.rescale = 0 →
        thread_function info = [Phase.sample, Phase.march, Phase.barrier]) ∧
      (∀ info : general_info, info.rescale ≠ 0 →
        thread_function info = [Phase.rescale, Phase.barrier, Phase.set_image, Phase.sample,
          Phase.march, Phase.barrier]) ∧
      (main_output black_bicubic (black_image 16 8) 2 flat_contours (const_grid 0) black_buffer
        [0, 0, 1, 1, 0, 1]).isSome = true := by
  refine ⟨?_, ?_, ?_, by decide⟩
  · intro info
    unfold thread_function
    split <;> decide
  · intro info h
    simp [thread_function, h]
  · intro info h
    simp [thread_function, h]

/-- C7: after the sampling phase a trailing-column cell `grid[i][q]`, `i < p`, holds the
class of the pixel at buffer index `i * 8 * y + x - 1`, with the number of rows `x` where
the last column of the row would need the row length `y`.  For the image of 8 rows of 16 pixels that is white except for a black pixel at
buffer index 7, the trailing-column cell `grid[0][q]` (`q = 2`) is 1 after sampling: it is
the class of the pixel at index `0 * 8 * y + x - 1 = 7`, while the pixel in the last column
of row 0, at index `0 * 8 * y + (y - 1) = 15`, is white and has class 0. -/
theorem C7_trailing_column_reads_index_x_minus_1 :
    (∀ (image : ppm_image) (P : Nat) (order : List Nat) (grid : Grid) (i : Nat),
        1 ≤ P → (∀ t, t < P → t ∈ order) → i < image.x / STEP →
        sampling_phase image STEP STEP SIGMA P (image.y / STEP) (image.x / STEP) order grid
            (i, image.y / STEP) =
          classify SIGMA (image.data (i * STEP * image.y + image.x - 1))) ∧
    sampling_phase rows8_cols16_image STEP STEP SIGMA 1 (rows8_cols16_image.y / STEP)
        (rows8_cols16_image.x / STEP) [0] (const_grid 0) (0, rows8_cols16_image.y / STEP) = 1 ∧
      classify SIGMA (rows8_cols16_image.data
        (0 * STEP * rows8_cols16_image.y + rows8_cols16_image.x - 1)) = 1 ∧
      classify SIGMA (rows8_cols16_image.data
        (0 * STEP * rows8_cols16_image.y + (rows8_cols16_image.y - 1))) = 0 := by
  refine ⟨?_, by decide, by decide, by decide⟩
  intro image P order grid i hP hall hi
  exact sampling_phase_last_column image STEP STEP SIGMA P _ _ order grid hP hall hi

/-- C8: after the sampling phase of `P >= 1` workers every cell `grid[p][j]`, `j < q`, of
the trailing row holds the class, by the rule of the interior cells, of the pixel at buffer
index `(x - 1) * y + j * 8`, and among the workers `t < P` the one that writes this cell is
worker `P - 1` and no other.  (An image has at least one row, `1 <= x`.) -/
theorem C8_trailing_row_by_last_worker (image : ppm_image) (P : Nat) (order : List Nat)
    (grid : Grid) (hP : 1 ≤ P) (_hx : 1 ≤ image.x) (hall : ∀ t, t < P → t ∈ order) (j : Nat)
    (hj : j < image.y / STEP) :
    sampling_phase image STEP STEP SIGMA P (image.y / STEP) (image.x / STEP) order grid
        (image.x / STEP, j) =
        classify SIGMA (image.data ((image.x - 1) * image.y + j * STEP)) ∧
      ∀ t, t < P →
        ((∃ op ∈ sample_ops image STEP STEP P (image.y / STEP) (image.x / STEP) t,
            op.row = image.x / STEP ∧ op.col = j) ↔ t = P - 1) := by
  refine ⟨sampling_phase_last_row image STEP STEP SIGMA P _ _ order grid hP hall hj, ?_⟩
  intro t _
  constructor
  · rintro ⟨op, hop, hrow, hcol⟩
    rcases mem_sample_ops.mp hop with ⟨i', j', hi', _, rfl⟩ | ⟨i', _, rfl⟩ | ⟨ht, _⟩
    · have := thread_rows_lt hi'
      simp only at hrow
      omega
    · simp only at hcol
      omega
    · omega
  · intro ht
    exact ⟨⟨image.x / STEP, j, (image.x - 1) * image.y + j * STEP⟩,
      mem_sample_ops.mpr (Or.inr (Or.inr ⟨by omega, j, hj, rfl⟩)), rfl, rfl⟩

/-- C8 at a concrete input: the black image of 16 rows of 8 pixels, two workers, cell
`grid[2][0]`. -/
theorem C8_trailing_row_by_last_worker_witness :
    sampling_phase (black_image 16 8) STEP STEP SIGMA 2 ((black_image 16 8).y / STEP)
        ((black_image 16 8).x / STEP) [0, 1] (const_grid 0) ((black_image 16 8).x / STEP, 0) =
        classify SIGMA ((black_image 16 8).data
          (((black_image 16 8).x - 1) * (black_image 16 8).y + 0 * STEP)) ∧
      ((∃ op ∈ sample_ops (black_image 16 8) STEP STEP 2 ((black_image 16 8).y / STEP)
            ((black_image 16 8).x / STEP) 0,
          op.row = (black_image 16 8).x / STEP ∧ op.col = 0) ↔ 0 = 2 - 1) :=
  ⟨(C8_trailing_row_by_last_worker (black_image 16 8) 2 [0, 1] (const_grid 0) (by decide)
      (by decide) (fun t ht => by simp; omega) 0 (by decide)).1,
    (C8_trailing_row_by_last_worker (black_image 16 8) 2 [0, 1] (const_grid 0) (by decide)
      (by decide) (fun t ht => by simp; omega) 0 (by decide)).2 0 (by decide)⟩

theorem mem_thread_function_rescale (info : general_info) :
    Phase.rescale ∈ thread_function info ↔ info.rescale ≠ 0 := by
  unfold thread_function
  split <;> simp_all

/-- C9: for every input image and `P >= 1` workers: `main` sets the rescale flag, and the
workers go through the rescale phase, exactly when `x > 2048` or `y > 2048`.  When the grid
rows hold only the bytes 0 and 1 when they are allocated (with 8 x 8 stencils and, for a
picture that is not rescaled, `1 <= x <= 8 * y`, so that no access of the run leaves a
buffer), the program has a complete run, at the end of which an image is written.  For every
complete run: when both dimensions are at most 2048 no worker has a rescale phase and the
image written has the dimensions `(x, y)` of the input; otherwise the rescaled image
allocated by `main` is 2048 x 2048, the image written is 2048 x 2048, and the run goes
through a moment at which the 2048 x 2048 image holds at every pixel `(i, j)` the sample
that `sample_bicubic` computes from the input for `(i, j)`. -/
theorem C9_rescale_iff_oversized (sample_bicubic : ppm_image → Nat → Nat → ppm_pixel)
    (image : ppm_image) (P : Nat) (contour_map : Nat → ppm_image) (grid0 : Grid)
    (buf0 : Nat → ppm_pixel) (hP : 1 ≤ P) :
    ((main_info image P contour_map grid0 buf0).rescale = 1 ↔
        image.x > 2048 ∨ image.y > 2048) ∧
      (Phase.rescale ∈ thread_function (main_info image P contour_map grid0 buf0) ↔
        image.x > 2048 ∨ image.y > 2048) ∧
      ((∀ rc, grid0 rc ≤ 1) →
        (∀ k, k < CONTOUR_CONFIG_COUNT →
          (contour_map k).x = STEP ∧ (contour_map k).y = STEP) →
        (image.x ≤ 2048 ∧ image.y ≤ 2048 → 1 ≤ image.x ∧ image.x ≤ 8 * image.y) →
        ∃ sched,
          (main_output sample_bicubic image P contour_map grid0 buf0 sched).isSome = true) ∧
      ∀ sched, (main_output sample_bicubic image P contour_map grid0 buf0 sched).isSome = true →
        (image.x ≤ 2048 ∧ image.y ≤ 2048 →
          Phase.rescale ∉ thread_function (main_info image P contour_map grid0 buf0) ∧
          (main_output sample_bicubic image P contour_map grid0 buf0 sched).map ppm_image.dims =
            some (image.x, image.y)) ∧
        (image.x > 2048 ∨ image.y > 2048 →
          (main_info image P contour_map grid0 buf0).rescaled_image.map ppm_image.dims =
              some (2048, 2048) ∧
          (main_output sample_bicubic image P contour_map grid0 buf0 sched).map ppm_image.dims =
            some (2048, 2048) ∧
          ∃ s1 s2 cm, sched = s1 ++ s2 ∧
            run sample_bicubic s1 (main_start image P contour_map grid0 buf0) = some cm ∧
            resampled sample_bicubic image (deref cm.info.rescaled_image)) := by
  have hflag : (main_info image P contour_map grid0 buf0).rescale = main_rescale image := rfl
  have hiff : main_rescale image = 1 ↔ image.x > 2048 ∨ image.y > 2048 :=
    main_rescale_eq_one image
  have hphase : Phase.rescale ∈ thread_function (main_info image P contour_map grid0 buf0) ↔
      image.x > 2048 ∨ image.y > 2048 := by
    rw [mem_thread_function_rescale, hflag, ← hiff]
    rcases main_rescale_cases image with h | h <;> simp [h]
  refine ⟨by rw [hflag]; exact hiff, hphase,
    fun hgrid0 _ _ => main_output_exists sample_bicubic image P contour_map grid0 buf0 hgrid0,
    ?_⟩
  intro sched hrun
  obtain ⟨out, hout⟩ := Option.isSome_iff_exists.mp hrun
  obtain ⟨hsmall, hbig⟩ := main_output_dims hP hout
  refine ⟨?_, ?_⟩
  · intro hle
    have h0 : main_rescale image = 0 := by
      rcases main_rescale_cases image with h | h
      · exact h
      · have := hiff.mp h
        omega
    refine ⟨fun hin => ?_, ?_⟩
    · have := hphase.mp hin
      omega
    · rw [hout]
      simp [ppm_image.dims, (hsmall h0).1, (hsmall h0).2]
  · intro hgt
    have h1 : main_rescale image = 1 := hiff.mpr hgt
    refine ⟨?_, ?_, ?_⟩
    · simp [main_info, h1, ppm_image.dims, RESCALE_X, RESCALE_Y]
    · rw [hout]
      have := hbig h1
      simp only [RESCALE_X, RESCALE_Y] at this
      simp [ppm_image.dims, this.1, this.2]
    · exact rescaled_in_every_run sample_bicubic image P contour_map grid0 buf0 sched hP h1
        hrun

/-- C9 at a concrete input: the black 8 x 8 image, one worker, the run in which the worker
samples, marches and passes the final barrier; the image written is 8 x 8. -/
theorem C9_rescale_iff_oversized_witness :
    Phase.rescale ∉ thread_function
        (main_info (black_image 8 8) 1 flat_contours (const_grid 0) black_buffer) ∧
      (main_output black_bicubic (black_image 8 8) 1 flat_contours (const_grid 0) black_buffer
        [0, 0, 0]).map ppm_image.dims = some (8, 8) :=
  ((C9_rescale_iff_oversized black_bicubic (black_image 8 8) 1 flat_contours (const_grid 0)
    black_buffer (by decide)).2.2.2 [0, 0, 0] (by decide)).1 ⟨by decide, by decide⟩

/-- C10 as stated fails: for the image with `x = 4096` and `y = 100` the workers go through
the rescale phase, the target has `y = 2048`, and the source has `y = 100 < 2048`. -/
theorem C10_upscaled_dimension_counterexample :
    Phase.rescale ∈ thread_function
        (main_info long_thin_image 1 flat_contours (const_grid 0) black_buffer) ∧
      (main_info long_thin_image 1 flat_contours (const_grid 0) black_buffer).rescaled_image.map
        ppm_image.dims = some (2048, 2048) ∧
      ¬ (2048 ≤ long_thin_image.y) := by
  refine ⟨by decide, by decide, by decide⟩

/-- C10, as amended: whenever the workers go through the rescale phase, at least one
dimension of the source exceeds the target, `2048 < x` or `2048 < y`, and the target is
2048 x 2048; so the picture is scaled down in at least one dimension. -/
theorem C10_rescale_only_when_oversized (image : ppm_image) (P : Nat)
    (contour_map : Nat → ppm_image) (grid0 : Grid) (buf0 : Nat → ppm_pixel)
    (h : Phase.rescale ∈ thread_function (main_info image P contour_map grid0 buf0)) :
    (RESCALE_X < image.x ∨ RESCALE_Y < image.y) ∧
      (main_info image P contour_map grid0 buf0).rescaled_image.map ppm_image.dims =
        some (RESCALE_X, RESCALE_Y) := by
  have hflag : (main_info image P contour_map grid0 buf0).rescale = main_rescale image := rfl
  rw [mem_thread_function_rescale, hflag] at h
  have h1 : main_rescale image = 1 := by
    rcases main_rescale_cases image with h0 | h1
    · exact absurd h0 h
    · exact h1
  exact ⟨(main_rescale_eq_one image).mp h1, by simp [main_info, h1, ppm_image.dims]⟩

/-- C10 as amended, at a concrete input: the image with `x = 4096` and `y = 100`. -/
theorem C10_rescale_only_when_oversized_witness :
    (RESCALE_X < long_thin_image.x ∨ RESCALE_Y < long_thin_image.y) ∧
      (main_info long_thin_image 1 flat_contours (const_grid 0) black_buffer).rescaled_image.map
        ppm_image.dims = some (RESCALE_X, RESCALE_Y) :=
  C10_rescale_only_when_oversized long_thin_image 1 flat_contours (const_grid 0) black_buffer
    (by decide)

/-! ## Uniform images -/

/-- On an image all of whose pixels have the class `v`, the sampling phase of `P >= 1`
workers puts `v` into every cell of the `(p + 1) x (q + 1)` grid except the corner cell. -/
theorem sampling_phase_uniform (image : ppm_image) (step_x step_y sigma P q p v : Nat)
    (order : List Nat) (grid : Grid) (hP : 1 ≤ P) (hall : ∀ t, t < P → t ∈ order)
    (hv : ∀ idx, classify sigma (image.data idx) = v) {i j : Nat} (hi : i ≤ p) (hj : j ≤ q)
    (hne : (i, j) ≠ (p, q)) :
    sampling_phase image step_x step_y sigma P q p order grid (i, j) = v := by
  by_cases hip : i < p
  · by_cases hjq : j < q
    · rw [sampling_phase_interior image step_x step_y sigma P q p order grid hP hall hip hjq]
      exact hv _
    · have hjq' : j = q := by omega
      subst hjq'
      rw [sampling_phase_last_column image step_x step_y sigma P j p order grid hP hall hip]
      exact hv _
  · have hip' : i = p := by omega
    subst hip'
    have hjq : j < q := by
      rcases Nat.lt_or_ge j q with h | h
      · exact h
      · exact absurd (by rw [show j = q by omega]) hne
    rw [sampling_phase_last_row image step_x step_y sigma P q i order grid hP hall hjq]
    exact hv _

/-! ## The properties of the specification, continued -/

/-- C11: on a solid black image the sampling phase of `P >= 1` workers puts 1 into every
grid cell except the corner cell `grid[p][q]`, to which it assigns nothing.  For the
16 x 16 black image, one worker and a zeroed grid buffer the corner cell `grid[2][2]` is 0
after sampling, the cell `(1, 1)` gets the configuration 13, and the output pixel at row 8,
column 8 is the one of stencil 13, while stencil 15 has `(15, 15, 15)` there. -/
theorem C11_black_image_corner_cell :
    (∀ (x y P : Nat) (order : List Nat) (grid : Grid) (i j : Nat),
        1 ≤ P → (∀ t, t < P → t ∈ order) → i ≤ x / STEP → j ≤ y / STEP →
        (i, j) ≠ (x / STEP, y / STEP) →
        sampling_phase (black_image x y) STEP STEP SIGMA P (y / STEP) (x / STEP) order grid
          (i, j) = 1) ∧
      sampling_phase (black_image 16 16) STEP STEP SIGMA 1 (16 / STEP) (16 / STEP) [0]
        (const_grid 0) (2, 2) = 0 ∧
      cell_config (sampling_phase (black_image 16 16) STEP STEP SIGMA 1 (16 / STEP) (16 / STEP)
        [0] (const_grid 0)) 1 1 = 13 ∧
      (main_output black_bicubic (black_image 16 16) 1 flat_contours (const_grid 0)
        black_buffer [0, 0, 0]).map (fun im => im.data ((1 * 8 + 0) * 16 + (1 * 8 + 0))) =
        some ⟨13, 13, 13⟩ ∧
      (flat_contours 15).data (0 * 8 + 0) = ⟨15, 15, 15⟩ := by
  refine ⟨?_, by decide, by decide, by decide, by decide⟩
  intro x y P order grid i j hP hall hi hj hne
  have hv : ∀ idx, classify SIGMA ((black_image x y).data idx) = 1 := by
    intro idx
    show classify SIGMA ⟨0, 0, 0⟩ = 1
    decide
  exact sampling_phase_uniform (black_image x y) STEP STEP SIGMA P _ _ 1 order grid hP hall
    hv hi hj hne

/-- C12: on a solid white image the sampling phase of `P >= 1` workers puts 0 into every
grid cell except the corner cell `grid[p][q]`, to which it assigns nothing.  For the
16 x 16 white image, one worker and a grid buffer that holds the byte 1 everywhere, the
corner cell `grid[2][2]` is 1 after sampling, the cell `(1, 1)` gets the configuration 2,
and the output pixel at row 8, column 8 is the one of stencil 2, while stencil 0 has
`(0, 0, 0)` there. -/
theorem C12_white_image_corner_cell :
    (∀ (x y P : Nat) (order : List Nat) (grid : Grid) (i j : Nat),
        1 ≤ P → (∀ t, t < P → t ∈ order) → i ≤ x / STEP → j ≤ y / STEP →
        (i, j) ≠ (x / STEP, y / STEP) →
        sampling_phase (white_image x y) STEP STEP SIGMA P (y / STEP) (x / STEP) order grid
          (i, j) = 0) ∧
      sampling_phase (white_image 16 16) STEP STEP SIGMA 1 (16 / STEP) (16 / STEP) [0]
        (const_grid 1) (2, 2) = 1 ∧
      cell_config (sampling_phase (white_image 16 16) STEP STEP SIGMA 1 (16 / STEP) (16 / STEP)
        [0] (const_grid 1)) 1 1 = 2 ∧
      (main_output black_bicubic (white_image 16 16) 1 flat_contours (const_grid 1)
        black_buffer [0, 0, 0]).map (fun im => im.data ((1 * 8 + 0) * 16 + (1 * 8 + 0))) =
        some ⟨2, 2, 2⟩ ∧
      (flat_contours 0).data (0 * 8 + 0) = ⟨0, 0, 0⟩ := by
  refine ⟨?_, by decide, by decide, by decide, by decide⟩
  intro x y P order grid i j hP hall hi hj hne
  have hv : ∀ idx, classify SIGMA ((white_image x y).data idx) = 0 := by
    intro idx
    show classify SIGMA ⟨255, 255, 255⟩ = 0
    decide
  exact sampling_phase_uniform (white_image x y) STEP STEP SIGMA P _ _ 0 order grid hP hall
    hv hi hj hne

/-- The blocks that `update_image` stores to for two different cells of the grid, with
8 x 8 stencils and step 8, have no buffer index in common. -/
theorem cell_writes_disjoint (image c1 c2 : ppm_image) (i j i' j' : Nat)
    (h1x : c1.x = 8) (h1y : c1.y = 8) (h2x : c2.x = 8) (h2y : c2.y = 8)
    (hj : j < image.y / 8) (hj' : j' < image.y / 8) (hne : (i, j) ≠ (i', j'))
    {op op' : pixel_copy} (hop : op ∈ update_image_ops image c1 (i * 8) (j * 8))
    (hop' : op' ∈ update_image_ops image c2 (i' * 8) (j' * 8)) :
    op.image_pixel_index ≠ op'.image_pixel_index := by
  obtain ⟨a, b, ha, hb, rfl⟩ := mem_update_image_ops.mp hop
  obtain ⟨a', b', ha', hb', rfl⟩ := mem_update_image_ops.mp hop'
  rw [h1x] at ha
  rw [h1y] at hb
  rw [h2x] at ha'
  rw [h2y] at hb'
  intro heq
  have heq' : (i * 8 + a) * image.y + (j * 8 + b) = (i' * 8 + a') * image.y + (j' * 8 + b') := by
    simpa [Nat.add_assoc] using heq
  have hq := Nat.div_mul_le_self image.y 8
  obtain ⟨e1, e2⟩ := index_inj (by omega) (by omega) heq'
  apply hne
  have hi : i = i' := by omega
  have hj : j = j' := by omega
  rw [hi, hj]

theorem mem_march_writes {contour_map : Nat → ppm_image} {grid : Grid}
    {step_x step_y P q p thread_id : Nat} {image : ppm_image} {idx : Nat} :
    idx ∈ march_writes contour_map grid step_x step_y P q p thread_id image ↔
      ∃ c ∈ march_cells P q p thread_id,
        ∃ op ∈ update_image_ops image (contour_map (cell_config grid c.1 c.2))
          (c.1 * step_x) (c.2 * step_y), op.image_pixel_index = idx := by
  unfold march_writes
  simp only [List.mem_flatMap, List.mem_map]

/-- C13: with 8 x 8 stencils and step 8, the buffer indices that `update_image` stores to
for a cell `(i, j)` and for a different cell `(i', j')`, `i, i' < p`, `j, j' < q`, are
different; hence no output-pixel index is stored to by two different workers during the
stamping. -/
theorem C13_stamping_regions_disjoint (image : ppm_image) (contour_map : Nat → ppm_image)
    (grid : Grid) (P : Nat)
    (hst : ∀ k, (contour_map k).x = STEP ∧ (contour_map k).y = STEP) :
    (∀ i j i' j' k k', i < image.x / STEP → i' < image.x / STEP → j < image.y / STEP →
        j' < image.y / STEP → (i, j) ≠ (i', j') →
        ∀ op ∈ update_image_ops image (contour_map k) (i * STEP) (j * STEP),
        ∀ op' ∈ update_image_ops image (contour_map k') (i' * STEP) (j' * STEP),
          op.image_pixel_index ≠ op'.image_pixel_index) ∧
      (∀ t1 t2, t1 ≠ t2 →
        ∀ idx ∈ march_writes contour_map grid STEP STEP P (image.y / STEP) (image.x / STEP) t1
            image,
          idx ∉ march_writes contour_map grid STEP STEP P (image.y / STEP) (image.x / STEP) t2
            image) := by
  simp only [STEP] at *
  constructor
  · intro i j i' j' k k' _ _ hj hj' hne op hop op' hop'
    exact cell_writes_disjoint image _ _ i j i' j' (hst k).1 (hst k).2 (hst k').1 (hst k').2
      hj hj' hne hop hop'
  · intro t1 t2 hne idx h1 h2
    obtain ⟨c1, hc1, op1, hop1, e1⟩ := mem_march_writes.mp h1
    obtain ⟨c2, hc2, op2, hop2, e2⟩ := mem_march_writes.mp h2
    obtain ⟨hr1, hq1⟩ := mem_march_cells.mp hc1
    obtain ⟨hr2, hq2⟩ := mem_march_cells.mp hc2
    obtain ⟨hs1, he1⟩ := mem_thread_rows.mp hr1
    obtain ⟨hs2, he2⟩ := mem_thread_rows.mp hr2
    have hrow : c1.1 ≠ c2.1 := by
      rcases Nat.lt_or_gt_of_ne hne with h | h
      · have := thread_end_le_start (image.x / 8) P h
        omega
      · have := thread_end_le_start (image.x / 8) P h
        omega
    have hcell : (c1.1, c1.2) ≠ (c2.1, c2.2) := by
      intro h
      exact hrow (Prod.mk.inj h).1
    exact cell_writes_disjoint image _ _ c1.1 c1.2 c2.1 c2.2 (hst _).1 (hst _).2 (hst _).1
      (hst _).2 hq1 hq2 hcell hop1 hop2 (e1.trans e2.symm)

/-- C13 at a concrete input: the black image of 16 rows of 8 pixels with two workers; the
index 0, stored to by worker 0, is not stored to by worker 1. -/
theorem C13_stamping_regions_disjoint_witness :
    0 ∉ march_writes flat_contours (const_grid 1) STEP STEP 2 ((black_image 16 8).y / STEP)
      ((black_image 16 8).x / STEP) 1 (black_image 16 8) :=
  (C13_stamping_regions_disjoint (black_image 16 8) flat_contours (const_grid 1) 2
    (fun _ => ⟨rfl, rfl⟩)).2 0 1 (by decide) 0 (by decide)

/-- The size of the range of a worker of the group is `n / P`, or `n / P + 1` when `P` does
not divide `n`. -/
theorem thread_range_size {k n P : Nat} (hk : k < P) :
    thread_end k n P - thread_start k n P = n / P ∨
      (n % P ≠ 0 ∧ thread_end k n P - thread_start k n P = n / P + 1) := by
  have hP : 0 < P := by omega
  rw [thread_end_eq hk]
  unfold thread_start
  have hsplit : (k + 1) * n = k * n + n := by rw [Nat.add_mul, Nat.one_mul]
  rw [hsplit, Nat.add_div hP]
  have hmod : k * n % P < P := Nat.mod_lt _ hP
  split
  · rename_i hge
    right
    constructor
    · intro h0
      omega
    · generalize k * n / P = A
      generalize n / P = B
      omega
  · left
    generalize k * n / P = A
    generalize n / P = B
    omega

theorem ceil_div_eq {n P : Nat} (hP : 1 ≤ P) :
    ceil_div n P = if n % P = 0 then n / P else n / P + 1 := by
  unfold ceil_div
  have hdecomp : n + P - 1 = (n % P + P - 1) + P * (n / P) := by
    have := Nat.mod_add_div n P
    omega
  have hmod : n % P < P := Nat.mod_lt _ (by omega)
  rw [hdecomp, Nat.add_mul_div_left _ _ (by omega : 0 < P)]
  split
  · rename_i h0
    have : (n % P + P - 1) / P = 0 := Nat.div_eq_of_lt (by omega)
    omega
  · rename_i h0
    have : (n % P + P - 1) / P = 1 :=
      Nat.div_eq_of_lt_le (by omega) (by omega)
    omega

/-- C15: for `P >= 1` workers and a range length `n`, the size `end_k - start_k` of the range
of every worker `k < P` is `floor(n / P)` or `ceil(n / P)`, and the sizes of the ranges of
two workers differ by at most 1. -/
theorem C15_even_division (P n : Nat) (hP : 1 ≤ P) :
    (∀ k, k < P →
        thread_end k n P - thread_start k n P = n / P ∨
        thread_end k n P - thread_start k n P = ceil_div n P) ∧
      (∀ k1 k2, k1 < P → k2 < P →
        thread_end k1 n P - thread_start k1 n P ≤ thread_end k2 n P - thread_start k2 n P + 1) := by
  constructor
  · intro k hk
    rcases thread_range_size (n := n) hk with h | ⟨hne, h⟩
    · exact Or.inl h
    · right
      rw [ceil_div_eq hP, if_neg hne]
      exact h
  · intro k1 k2 hk1 hk2
    rcases thread_range_size (n := n) hk1 with h1 | ⟨_, h1⟩ <;>
      rcases thread_range_size (n := n) hk2 with h2 | ⟨_, h2⟩ <;> omega

/-- C15 at a concrete input: three workers on a range of length 10; worker 1 has the range
`[3, 6)` of size `floor(10 / 3) = 3`, worker 2 the range `[6, 10)` of size
`ceil(10 / 3) = 4`. -/
theorem C15_even_division_witness :
    (thread_end 1 10 3 - thread_start 1 10 3 = 10 / 3 ∨
        thread_end 1 10 3 - thread_start 1 10 3 = ceil_div 10 3) ∧
      thread_end 2 10 3 - thread_start 2 10 3 ≤ thread_end 1 10 3 - thread_start 1 10 3 + 1 :=
  ⟨(C15_even_division 3 10 (by decide)).1 1 (by decide),
    (C15_even_division 3 10 (by decide)).2 2 1 (by decide) (by decide)⟩

/-! ## The allocations of `main` -/

theorem first_failed_fails_only_at (site : alloc_site) (sites : List alloc_site) :
    first_failed (fails_only_at site) sites = if site ∈ sites then some site else none := by
  induction sites with
  | nil => rfl
  | cons a l ih =>
    unfold first_failed at ih ⊢
    rw [List.find?_cons]
    by_cases ha : a = site
    · subst ha
      simp [fails_only_at]
    · have hne : site ≠ a := fun h => ha h.symm
      simp only [fails_only_at, ne_eq, ha, not_false_eq_true, decide_True, Bool.not_true,
        List.mem_cons, hne, false_or]
      exact ih

theorem grid_row_mem (site : alloc_site) (n : Nat) :
    site ∈ (List.range n).map alloc_site.grid_row ↔ ∃ i, i < n ∧ site = alloc_site.grid_row i := by
  simp only [List.mem_map, List.mem_range]
  constructor
  · rintro ⟨i, hi, rfl⟩
    exact ⟨i, hi, rfl⟩
  · rintro ⟨i, hi, rfl⟩
    exact ⟨i, hi, rfl⟩

theorem thread_arg_mem (site : alloc_site) (n : Nat) :
    site ∈ (List.range n).map alloc_site.thread_arg ↔
      ∃ i, i < n ∧ site = alloc_site.thread_arg i := by
  simp only [List.mem_map, List.mem_range]
  constructor
  · rintro ⟨i, hi, rfl⟩
    exact ⟨i, hi, rfl⟩
  · rintro ⟨i, hi, rfl⟩
    exact ⟨i, hi, rfl⟩

/-- A failure of the pixel buffer of the rescaled image goes unnoticed by `main`, and the
workers store through the `NULL` pointer. -/
theorem main_allocations_rescaled_data (image : ppm_image) (P : Nat)
    (hr : main_rescale image = 1) (hP : 1 ≤ P) :
    main_allocations image P (fails_only_at alloc_site.rescaled_data) =
      main_result.null_use alloc_site.rescaled_data := by
  unfold main_allocations
  rw [first_failed_fails_only_at, first_failed_fails_only_at]
  have h1 : alloc_site.rescaled_data ∉
      (List.range (main_p image + 1)).map alloc_site.grid_row := by
    rw [grid_row_mem]
    rintro ⟨i, _, h⟩
    cases h
  have h2 : alloc_site.rescaled_data ∉ (List.range P).map alloc_site.thread_arg := by
    rw [thread_arg_mem]
    rintro ⟨i, _, h⟩
    cases h
  simp [h1, h2, fails_only_at, hr, hP]

/-- A failure of the array of grid row pointers goes unnoticed by `main`, and the loop that
allocates the rows stores through the `NULL` pointer. -/
theorem main_allocations_grid (image : ppm_image) (P : Nat) :
    main_allocations image P (fails_only_at alloc_site.grid) =
      main_result.null_use alloc_site.grid := by
  unfold main_allocations
  simp [fails_only_at]

/-- A failure of any other allocation that `main` performs ends in the error message and
`exit(1)`. -/
theorem main_allocations_checked (image : ppm_image) (P : Nat) (site : alloc_site)
    (hperf : main_performs image P site) (h1 : site ≠ alloc_site.rescaled_data)
    (h2 : site ≠ alloc_site.grid) :
    main_allocations image P (fails_only_at site) = main_result.exit_1 site := by
  unfold main_allocations
  rw [first_failed_fails_only_at, first_failed_fails_only_at]
  cases site with
  | rescaled_image =>
    have hr : main_rescale image = 1 := hperf
    simp [fails_only_at, hr]
  | rescaled_data => exact absurd rfl h1
  | barrier => simp [fails_only_at]
  | grid => exact absurd rfl h2
  | grid_row i =>
    have hi : i ≤ main_p image := hperf
    have hmem : alloc_site.grid_row i ∈
        (List.range (main_p image + 1)).map alloc_site.grid_row := by
      rw [grid_row_mem]
      exact ⟨i, by omega, rfl⟩
    simp only [hmem, if_true]
    simp [fails_only_at]
  | general_info =>
    have hmem : alloc_site.general_info ∉
        (List.range (main_p image + 1)).map alloc_site.grid_row := by
      rw [grid_row_mem]
      rintro ⟨i, _, h⟩
      cases h
    simp only [hmem, if_false]
    simp [fails_only_at]
  | thread_arg i =>
    have hi : i < P := hperf
    have hmem : alloc_site.thread_arg i ∉
        (List.range (main_p image + 1)).map alloc_site.grid_row := by
      rw [grid_row_mem]
      rintro ⟨i, _, h⟩
      cases h
    have hmem' : alloc_site.thread_arg i ∈ (List.range P).map alloc_site.thread_arg := by
      rw [thread_arg_mem]
      exact ⟨i, hi, rfl⟩
    simp only [hmem, hmem', if_false, if_true]
    simp [fails_only_at]

/-- C14: two of the allocations of `main` are not followed by a test of their result.  When
only the pixel buffer of the rescaled image fails (a picture that needs rescaling, at least
one worker), or only the array of grid row pointers fails, `main` does not report an error
and the `NULL` pointer is used; a failure of any other allocation that `main` performs ends
in the error message and `exit(1)`. -/
theorem C14_unchecked_allocations :
    (∀ (image : ppm_image) (P : Nat), main_rescale image = 1 → 1 ≤ P →
        main_allocations image P (fails_only_at alloc_site.rescaled_data) =
          main_result.null_use alloc_site.rescaled_data) ∧
      (∀ (image : ppm_image) (P : Nat),
        main_allocations image P (fails_only_at alloc_site.grid) =
          main_result.null_use alloc_site.grid) ∧
      (∀ (image : ppm_image) (P : Nat) (site : alloc_site), main_performs image P site →
        site ≠ alloc_site.rescaled_data → site ≠ alloc_site.grid →
        main_allocations image P (fails_only_at site) = main_result.exit_1 site) ∧
      main_allocations long_thin_image 2 (fails_only_at alloc_site.rescaled_data) =
        main_result.null_use alloc_site.rescaled_data ∧
      main_allocations (black_image 16 16) 2 (fails_only_at alloc_site.grid) =
        main_result.null_use alloc_site.grid :=
  ⟨main_allocations_rescaled_data, main_allocations_grid, main_allocations_checked,
    by decide, by decide⟩

/-! ## The classification of a pixel -/

/-- C16: the value that an iteration of any of the three sampling loops stores for a pixel
with 8-bit channels `(r, g, b)` is 1 if `r + g + b <= 602` and 0 otherwise;
`r + g + b <= 602` is the same as `floor((r + g + b) / 3) <= 200`; and
`floor((r + g + b) / 3)` is below 256, so the `unsigned char` that holds it does not wrap. -/
theorem C16_classification_by_channel_sum (image : ppm_image) (grid : Grid) (op : sample_op)
    (hpx : (image.data op.pixel_index).wf) :
    sample_write image SIGMA grid op (op.row, op.col) =
        (if (image.data op.pixel_index).sum ≤ 602 then 1 else 0) ∧
      ((image.data op.pixel_index).sum ≤ 602 ↔ (image.data op.pixel_index).sum / 3 ≤ 200) ∧
      (image.data op.pixel_index).sum / 3 < 256 ∧
      (image.data op.pixel_index).sum / 3 % 256 = (image.data op.pixel_index).sum / 3 := by
  obtain ⟨hr, hg, hb⟩ := hpx
  have hsum : (image.data op.pixel_index).sum < 768 := by
    unfold ppm_pixel.sum
    omega
  have hlt : (image.data op.pixel_index).sum / 3 < 256 := by omega
  have hmod : (image.data op.pixel_index).sum / 3 % 256 = (image.data op.pixel_index).sum / 3 :=
    Nat.mod_eq_of_lt hlt
  refine ⟨?_, by omega, hlt, hmod⟩
  have hw : sample_write image SIGMA grid op (op.row, op.col) =
      classify SIGMA (image.data op.pixel_index) := by
    simp [sample_write, upd]
  rw [hw]
  have hc : classify SIGMA (image.data op.pixel_index) =
      if (image.data op.pixel_index).sum / 3 % 256 > 200 then 0 else 1 := rfl
  rw [hc, hmod]
  by_cases h : (image.data op.pixel_index).sum ≤ 602
  · rw [if_pos h, if_neg (by omega)]
  · rw [if_neg h, if_pos (by omega)]

/-- C16 at a concrete input: the iteration of the interior loop for the cell `(0, 0)` of the
8 x 8 image of pixels `(201, 200, 200)`, channel sum 601. -/
theorem C16_classification_by_channel_sum_witness :
    sample_write near_threshold_image SIGMA (const_grid 0) ⟨0, 0, 0⟩ (0, 0) =
      (if (near_threshold_image.data 0).sum ≤ 602 then 1 else 0) :=
  (C16_classification_by_channel_sum near_threshold_image (const_grid 0) ⟨0, 0, 0⟩
    (by decide)).1

/-! ## Bounds of the buffer accesses -/

/-- The buffer index of a pixel in row `r < X` and column `c < Y` lies inside the buffer of
`X * Y` pixels. -/
theorem index_lt {X Y r c : Nat} (hr : r < X) (hc : c < Y) : r * Y + c < X * Y := by
  have h1 : (r + 1) * Y ≤ X * Y := Nat.mul_le_mul_right Y hr
  rw [Nat.add_mul, Nat.one_mul] at h1
  omega

theorem mem_sample_interior_ops {image : ppm_image} {step_x step_y P q p thread_id : Nat}
    {op : sample_op} :
    op ∈ sample_interior_ops image step_x step_y P q p thread_id ↔
      ∃ i j, i ∈ thread_rows thread_id p P ∧ j < q ∧
        op = ⟨i, j, i * step_x * image.y + j * step_y⟩ := by
  unfold sample_interior_ops
  simp only [List.mem_flatMap, List.mem_map, List.mem_range]
  constructor
  · rintro ⟨i, hi, j, hj, rfl⟩
    exact ⟨i, j, hi, hj, rfl⟩
  · rintro ⟨i, j, hi, hj, rfl⟩
    exact ⟨i, hi, j, hj, rfl⟩

/-- The pixel reads of the interior loop are inside the pixel buffer. -/
theorem sample_interior_ops_in_bounds (image : ppm_image) (P thread_id : Nat) (op : sample_op)
    (hop : op ∈ sample_interior_ops image 8 8 P (image.y / 8) (image.x / 8) thread_id) :
    op.pixel_index < image.x * image.y := by
  obtain ⟨i, j, hi, hj, rfl⟩ := mem_sample_interior_ops.mp hop
  have hip := thread_rows_lt hi
  have hx := Nat.div_mul_le_self image.x 8
  have hy := Nat.div_mul_le_self image.y 8
  exact index_lt (by omega) (by omega)

/-- The pixel reads of the trailing-row loop are inside the pixel buffer of an image with at
least one row. -/
theorem sample_last_row_ops_in_bounds (image : ppm_image) (op : sample_op)
    (hx : 1 ≤ image.x)
    (hop : op ∈ sample_last_row_ops image 8 (image.y / 8) (image.x / 8)) :
    op.pixel_index < image.x * image.y := by
  unfold sample_last_row_ops at hop
  simp only [List.mem_map, List.mem_range] at hop
  obtain ⟨j, hj, rfl⟩ := hop
  have hy := Nat.div_mul_le_self image.y 8
  exact index_lt (by omega) (by omega)

/-- C17: the pixel reads of the interior loop and of the trailing-row loop are inside the
buffer of `x * y` pixels, for every image with `x >= 1`, `y >= 1` and every worker.  The
reads of the trailing-column loop are not: for the image of 72 rows of 8 pixels and one
worker, the iteration `i = 8` of that loop (cell `grid[8][1]`) reads the pixel at index
`8 * 8 * 8 + 72 - 1 = 583`, and the buffer has `72 * 8 = 576` pixels. -/
theorem C17_trailing_column_read_out_of_bounds :
    (∀ (image : ppm_image) (P t : Nat) (op : sample_op), 1 ≤ image.x → 1 ≤ image.y →
        op ∈ sample_interior_ops image STEP STEP P (image.y / STEP) (image.x / STEP) t →
        op.pixel_index < image.x * image.y) ∧
      (∀ (image : ppm_image) (op : sample_op), 1 ≤ image.x → 1 ≤ image.y →
        op ∈ sample_last_row_ops image STEP (image.y / STEP) (image.x / STEP) →
        op.pixel_index < image.x * image.y) ∧
      (⟨8, 1, 583⟩ : sample_op) ∈ sample_last_column_ops (black_image 72 8) STEP 1
        ((black_image 72 8).y / STEP) ((black_image 72 8).x / STEP) 0 ∧
      (⟨8, 1, 583⟩ : sample_op) ∈ sample_ops (black_image 72 8) STEP STEP 1
        ((black_image 72 8).y / STEP) ((black_image 72 8).x / STEP) 0 ∧
      ¬ (583 < (black_image 72 8).x * (black_image 72 8).y) := by
  refine ⟨?_, ?_, by decide, by decide, by decide⟩
  · intro image P t op _ _ hop
    exact sample_interior_ops_in_bounds image P t op hop
  · intro image op hx _ hop
    exact sample_last_row_ops_in_bounds image op hx hop

/-- The configuration of a cell depends on the grid only through the four cells listed by
`cell_config_reads`. -/
theorem cell_config_congr (g g' : Grid) (i j : Nat)
    (h : ∀ rc ∈ cell_config_reads i j, g rc = g' rc) :
    cell_config g i j = cell_config g' i j := by
  unfold cell_config
  rw [h (i, j) (by simp [cell_config_reads]), h (i, j + 1) (by simp [cell_config_reads]),
    h (i + 1, j + 1) (by simp [cell_config_reads]), h (i + 1, j) (by simp [cell_config_reads])]

/-- The grid cells written by the sampling loops of any worker lie in rows `0..p` and
columns `0..q`. -/
theorem sample_ops_in_grid {image : ppm_image} {step_x step_y P q p thread_id : Nat}
    {op : sample_op} (hop : op ∈ sample_ops image step_x step_y P q p thread_id) :
    op.row ≤ p ∧ op.col ≤ q := by
  rcases mem_sample_ops.mp hop with ⟨i, j, hi, hj, rfl⟩ | ⟨i, hi, rfl⟩ | ⟨_, j, hj, rfl⟩
  · have := thread_rows_lt hi
    exact ⟨by simp only; omega, by simp only; omega⟩
  · have := thread_rows_lt hi
    exact ⟨by simp only; omega, Nat.le_refl _⟩
  · exact ⟨Nat.le_refl _, by simp only; omega⟩

/-- The grid cells read by the marching loops of any worker lie in rows `0..p` and columns
`0..q`. -/
theorem march_reads_in_grid {P q p thread_id : Nat} {cell rc : Nat × Nat}
    (hcell : cell ∈ march_cells P q p thread_id) (hrc : rc ∈ cell_config_reads cell.1 cell.2) :
    rc.1 ≤ p ∧ rc.2 ≤ q := by
  obtain ⟨hi, hj⟩ := mem_march_cells.mp hcell
  have := thread_rows_lt hi
  simp only [cell_config_reads, List.mem_cons, List.mem_singleton, List.not_mem_nil,
    or_false] at hrc
  rcases hrc with rfl | rfl | rfl | rfl <;> exact ⟨by simp only; omega, by simp only; omega⟩

theorem set_cur_image_fields (info : general_info) (im : ppm_image) :
    (info.set_cur_image im).step_x = info.step_x ∧
      (info.set_cur_image im).step_y = info.step_y ∧
      (info.set_cur_image im).contour_map = info.contour_map ∧
      (info.set_cur_image im).grid = info.grid := by
  unfold general_info.set_cur_image
  cases info.image <;> exact ⟨rfl, rfl, rfl, rfl⟩

/-- No phase of a worker changes the step sizes. -/
theorem exec_phase_steps (sample_bicubic : ppm_image → Nat → Nat → ppm_pixel)
    (thread_id : Nat) (ph : Phase) (info info' : general_info)
    (h : exec_phase sample_bicubic thread_id ph info = some info') :
    info'.step_x = info.step_x ∧ info'.step_y = info.step_y := by
  cases ph with
  | march =>
    obtain ⟨im, _, hi⟩ := exec_phase_march h
    rw [hi]
    exact ⟨(set_cur_image_fields info _).1, (set_cur_image_fields info _).2.1⟩
  | rescale => rw [← Option.some.inj h]; exact ⟨rfl, rfl⟩
  | barrier => rw [← Option.some.inj h]; exact ⟨rfl, rfl⟩
  | set_image => rw [← Option.some.inj h]; exact ⟨rfl, rfl⟩
  | sample => rw [← Option.some.inj h]; exact ⟨rfl, rfl⟩

theorem steps_inv_of_run {sample_bicubic : ppm_image → Nat → Nat → ppm_pixel}
    (sched : List Nat) {c c' : Config} (h : run sample_bicubic sched c = some c')
    (inv : steps_inv c) : steps_inv c' := by
  induction sched generalizing c with
  | nil =>
    simp only [run, Option.some.injEq] at h
    exact h ▸ inv
  | cons t sched ih =>
    unfold run at h
    split at h
    · cases h
    · rename_i c1 hstep
      apply ih h
      obtain ⟨ph, rest, _, _, hinfo⟩ := step_some hstep
      unfold steps_inv
      rw [(exec_phase_steps sample_bicubic t ph c.info c1.info hinfo).1,
        (exec_phase_steps sample_bicubic t ph c.info c1.info hinfo).2]
      exact inv

/-- At every moment of a run the values `p` and `q` that a worker computes are the ones
`main` has used to allocate the grid. -/
theorem thread_pq_eq_main {image : ppm_image} {P : Nat} {c : Config}
    (inv : run_inv image P c) (hs : steps_inv c) :
    thread_p c.info = main_p image ∧ thread_q c.info = main_q image := by
  obtain ⟨hsx, hsy⟩ := hs
  unfold thread_p thread_q main_p main_q
  rw [inv.rescale_eq, hsx, hsy]
  rcases main_rescale_cases image with h0 | h1
  · have hptr : c.info.image = image_ref.original := by
      cases hp : c.info.image with
      | original => rfl
      | rescaled => have := inv.ptr1 hp; omega
    have hcur : c.info.cur_image = c.info.original := by
      simp [general_info.cur_image, hptr]
    rw [h0, hcur, inv.orig_x, inv.orig_y]
    simp
  · obtain ⟨r, hr, hx, hy⟩ := inv.resc h1
    rw [h1, hr]
    simp [deref, hx, hy]

/-- C18: at every moment of a run started by `main`, with or without rescaling, the `p` and
`q` that a worker computes are the `p` and `q` that `main` has used to allocate the
`(p + 1) x (q + 1)` grid, and for every worker every grid cell `(r, c)` written by its
sampling loops or read by its marching loops has `r <= p` and `c <= q`. -/
theorem C18_grid_accesses_in_bounds (sample_bicubic : ppm_image → Nat → Nat → ppm_pixel)
    (image : ppm_image) (P : Nat) (contour_map : Nat → ppm_image) (grid0 : Grid)
    (buf0 : Nat → ppm_pixel) (sched : List Nat)
    (hrun : (run sample_bicubic sched (main_start image P contour_map grid0 buf0)).isSome
      = true) :
    (run sample_bicubic sched (main_start image P contour_map grid0 buf0)).map
        (fun c => (thread_p c.info, thread_q c.info)) = some (main_p image, main_q image) ∧
      ∀ c, run sample_bicubic sched (main_start image P contour_map grid0 buf0) = some c →
        ∀ t,
          (∀ op ∈ sample_ops c.info.cur_image c.info.step_x c.info.step_y c.info.P
              (thread_q c.info) (thread_p c.info) t,
            op.row ≤ main_p image ∧ op.col ≤ main_q image) ∧
          (∀ cell ∈ march_cells c.info.P (thread_q c.info) (thread_p c.info) t,
            ∀ rc ∈ cell_config_reads cell.1 cell.2,
              rc.1 ≤ main_p image ∧ rc.2 ≤ main_q image) := by
  have hpq : ∀ c, run sample_bicubic sched (main_start image P contour_map grid0 buf0) = some c →
      thread_p c.info = main_p image ∧ thread_q c.info = main_q image := by
    intro c hc
    exact thread_pq_eq_main
      (run_inv_of_run sched hc (main_start_inv image P contour_map grid0 buf0))
      (steps_inv_of_run sched hc ⟨rfl, rfl⟩)
  constructor
  · obtain ⟨c, hc⟩ := Option.isSome_iff_exists.mp hrun
    rw [hc]
    simp [(hpq c hc).1, (hpq c hc).2]
  · intro c hc t
    obtain ⟨hp, hq⟩ := hpq c hc
    constructor
    · intro op hop
      rw [← hp, ← hq]
      exact sample_ops_in_grid hop
    · intro cell hcell rc hrc
      rw [← hp, ← hq]
      exact march_reads_in_grid hcell hrc

/-- C18 at a concrete input: the black image of 16 rows of 8 pixels, two workers, the moment
after worker 0 has sampled and marched; `p = 2` and `q = 1`. -/
theorem C18_grid_accesses_in_bounds_witness :
    (run black_bicubic [0, 0]
        (main_start (black_image 16 8) 2 flat_contours (const_grid 0) black_buffer)).map
        (fun c => (thread_p c.info, thread_q c.info)) =
      some (main_p (black_image 16 8), main_q (black_image 16 8)) :=
  (C18_grid_accesses_in_bounds black_bicubic (black_image 16 8) 2 flat_contours (const_grid 0)
    black_buffer [0, 0] (by decide)).1

/-- C19: with an 8 x 8 stencil and step 8, for every cell `(i, j)` with `i < p = x / 8` and
`j < q = y / 8`, every iteration of `update_image` stores to an output-pixel index
`(i * 8 + a) * y + j * 8 + b`, `a, b < 8`, that is below `x * y`, and reads a stencil index
below 64. -/
theorem C19_stamping_writes_in_bounds (image contour : ppm_image) (i j : Nat)
    (hcx : contour.x = STEP) (hcy : contour.y = STEP) (hi : i < image.x / STEP)
    (hj : j < image.y / STEP) (op : pixel_copy)
    (hop : op ∈ update_image_ops image contour (i * STEP) (j * STEP)) :
    (∃ a b, a < 8 ∧ b < 8 ∧ op.image_pixel_index = (i * 8 + a) * image.y + j * 8 + b) ∧
      op.image_pixel_index < image.x * image.y ∧
      op.contour_pixel_index < 64 := by
  simp only [STEP] at *
  obtain ⟨a, b, ha, hb, rfl⟩ := mem_update_image_ops.mp hop
  rw [hcx] at ha
  rw [hcy] at hb
  have hx := Nat.div_mul_le_self image.x 8
  have hy := Nat.div_mul_le_self image.y 8
  refine ⟨⟨a, b, ha, hb, rfl⟩, ?_, ?_⟩
  · show (i * 8 + a) * image.y + j * 8 + b < image.x * image.y
    rw [Nat.add_assoc]
    exact index_lt (by omega) (by omega)
  · show contour.x * a + b < 64
    rw [hcx]
    omega

/-- C19 at a concrete input: the last iteration of `update_image` for the lower right cell
`(1, 1)` of a 16 x 16 image stores to index `15 * 16 + 15 = 255` and reads stencil index
63. -/
theorem C19_stamping_writes_in_bounds_witness :
    (⟨255, 63⟩ : pixel_copy).image_pixel_index <
        (black_image 16 16).x * (black_image 16 16).y ∧
      (⟨255, 63⟩ : pixel_copy).contour_pixel_index < 64 :=
  (C19_stamping_writes_in_bounds (black_image 16 16) (flat_contours 15) 1 1 rfl rfl
    (by decide) (by decide) ⟨255, 63⟩ (by decide)).2

/-- C20: for an image of dimensions `(X, Y)`, a stencil of dimensions `(cx, cy)` and an
offset `(x0, y0)` with `x0 + cx <= X` and `y0 + cy <= Y`, the pixel of every row `r` and
column `c < Y` outside the block `x0 <= r < x0 + cx`, `y0 <= c < y0 + cy` is the same after
`update_image` as before, and so are the dimensions of the image; the marching phase, the
caller of `update_image`, leaves the stencils as they are whenever it has a result. -/
theorem C20_update_image_frame (image contour : ppm_image) (x0 y0 : Nat)
    (_hx : x0 + contour.x ≤ image.x) (hy : y0 + contour.y ≤ image.y) :
    (∀ r c, c < image.y →
        ¬ (x0 ≤ r ∧ r < x0 + contour.x ∧ y0 ≤ c ∧ c < y0 + contour.y) →
        (update_image image contour x0 y0).data (r * image.y + c) =
          image.data (r * image.y + c)) ∧
      (update_image image contour x0 y0).x = image.x ∧
      (update_image image contour x0 y0).y = image.y ∧
      (∀ (sample_bicubic : ppm_image → Nat → Nat → ppm_pixel) (t : Nat)
          (info info' : general_info),
        exec_phase sample_bicubic t Phase.march info = some info' →
        info'.contour_map = info.contour_map) := by
  refine ⟨?_, rfl, rfl, ?_⟩
  · intro r c hc hout
    apply update_image_miss
    intro a b ha hb heq
    have heq' : r * image.y + c = (x0 + a) * image.y + (y0 + b) := by
      rw [heq, Nat.add_assoc]
    obtain ⟨e1, e2⟩ := index_inj hc (by omega) heq'
    exact hout ⟨by omega, by omega, by omega, by omega⟩
  · intro sample_bicubic t info info' h
    obtain ⟨im, _, hi⟩ := exec_phase_march h
    rw [hi]
    exact (set_cur_image_fields info im).2.2.1

/-- C20 at a concrete input: stamping the block at offset `(8, 8)` of a 16 x 16 image leaves
the pixel of row 7, column 15 as it was. -/
theorem C20_update_image_frame_witness :
    (update_image (black_image 16 16) (flat_contours 15) 8 8).data
        (7 * (black_image 16 16).y + 15) =
      (black_image 16 16).data (7 * (black_image 16 16).y + 15) :=
  (C20_update_image_frame (black_image 16 16) (flat_contours 15) 8 8 (by decide)
    (by decide)).1 7 15 (by decide) (by decide)

end MarchingSquares
